import Mathlib

/-!
# Verification development for the `matter-tree-2` repository

This file gives a shallow embedding of the tree-construction and
force-configuration logic of `src/tree.ts` and of the effect guard of
`src/App.tsx`, and proves (or refutes) the specification claims about them.

Modelling conventions:
* JavaScript `Map` objects are modelled as association lists
  (`List (key × value)`); `Map.get` is `assocFind`, `Map.set` is `assocSet`
  (update in place, else append — the insertion-order semantics of `Map`),
  and freshly inserted BFS bindings are modelled by consing, which agrees
  with `Map.set` on keys that are absent.
* Recursive procedures without a structural termination argument in the
  source (`buildRec`, the BFS `while` loop) are embedded with an explicit
  fuel parameter bounding the number of iterations / the recursion depth;
  theorems either hold for every fuel or exhibit a sufficient fuel.
* `Math.random()` is modelled by an oracle `rng : Nat → Nat` consumed at a
  counter, one draw per randomized count in the source; each concrete run
  of the program corresponds to some oracle.
* Floating-point numerics are modelled exactly: configuration constants
  over `ℚ`, the per-tick force arithmetic over `ℝ` (with `Real.sqrt` for
  `Math.sqrt`).  Screen positions of bodies are not modelled numerically;
  the integer layout seeds that determine them (the node's depth and its
  slot index within a depth layer) are recorded on each body instead.
-/

/-! # Part 1: Definitions -/

/-! ## Association-list primitives (JavaScript `Map`) -/

def assocFind {α β : Type} [DecidableEq α] : List (α × β) → α → Option β
  | [], _ => none
  | (k, v) :: rest, x => if x = k then some v else assocFind rest x

def assocSet {α β : Type} [DecidableEq α] : List (α × β) → α → β → List (α × β)
  | [], x, v => [(x, v)]
  | (k, w) :: rest, x, v =>
      if x = k then (x, v) :: rest else (k, w) :: assocSet rest x v

def keys {α β : Type} (l : List (α × β)) : List α := l.map Prod.fst

/-! ## Breadth-first depth computation (`tree.ts` lines 168–178)

```js
const depth = new Map([[rootId, 0]]);
const q = [rootId];
while (q.length) {
    const p = q.shift();
    for (const c of adjacency.get(p) || []) {
        if (!depth.has(c)) {
            depth.set(c, (depth.get(p) ?? 0) + 1);
            q.push(c);
        }
    }
}
```
-/

section Bfs

variable {α : Type} [DecidableEq α]

/-- Children of `p` in the adjacency: `adjacency.get(p) || []`. -/
def childrenOf (adj : List (α × List α)) (p : α) : List α :=
  (assocFind adj p).getD []

/-- The body of the `for (const c of adjacency.get(p) || [])` loop: the state
is the pair (queue, depth map). -/
def bfsVisit (p : α) : List α → List α × List (α × Nat) → List α × List (α × Nat)
  | [], s => s
  | c :: cs, (q, d) =>
      if (assocFind d c).isSome
      then bfsVisit p cs (q, d)
      else bfsVisit p cs (q ++ [c], (c, (assocFind d p).getD 0 + 1) :: d)

/-- The `while (q.length)` loop, with fuel bounding the number of dequeues.
Returns the depth map together with the part of the queue left unprocessed
when the fuel runs out (empty whenever the fuel suffices). -/
def bfsLoop (adj : List (α × List α)) :
    Nat → List α → List (α × Nat) → List (α × Nat) × List α
  | 0, q, d => (d, q)
  | _ + 1, [], d => (d, [])
  | fuel + 1, p :: q, d =>
      let s := bfsVisit p (childrenOf adj p) (q, d)
      bfsLoop adj fuel s.1 s.2

/-- Every id that the BFS can ever touch: the root plus every id occurring in
some children list of the adjacency. -/
def idUniverse (adj : List (α × List α)) (root : α) : List α :=
  (root :: adj.foldr (fun pr acc => pr.2 ++ acc) []).dedup

/-- The depth map computed by `buildTree`: run the BFS loop from
`depth = Map([[rootId, 0]])`, `q = [rootId]` with sufficient fuel. -/
def bfsDepth (adj : List (α × List α)) (root : α) : List (α × Nat) :=
  (bfsLoop adj (idUniverse adj root).length [root] [(root, 0)]).1

/-- Ids reachable from `s` by following children lists for at most `n` steps
(with multiplicity; only membership is ever used).  Membership in `ball n`
is "there is a path of length at most `n`". -/
def ball (adj : List (α × List α)) (s : α) : Nat → List α
  | 0 => [s]
  | n + 1 => ball adj s n ++ (ball adj s n).flatMap (childrenOf adj)

/-- Depth value stored for `x`, defaulting to `0` (`depth.get(p) ?? 0`). -/
def valD (d : List (α × Nat)) (x : α) : Nat := (assocFind d x).getD 0

end Bfs

/-- Invariant of the BFS `while` loop, tying the queue `q` and the depth map
`d` together: keys are unique and drawn from the id universe, the queue is a
duplicate-free list of keys sorted by depth, all stored depths are within one
of the depth of any queued node, every key no longer in the queue has been
fully processed (children relaxed), and every stored depth is realized by a
path from the root. -/
structure BfsInv {α : Type} [DecidableEq α] (adj : List (α × List α))
    (root : α) (q : List α) (d : List (α × Nat)) : Prop where
  nodK : (keys d).Nodup
  subU : ∀ x ∈ keys d, x ∈ idUniverse adj root
  qSub : ∀ x ∈ q, x ∈ keys d
  qNod : q.Nodup
  sortQ : q.Pairwise (fun a b => valD d a ≤ valD d b)
  allB : ∀ p ∈ q, ∀ x ∈ keys d, valD d x ≤ valD d p + 1
  closedK : ∀ x ∈ keys d, x ∉ q →
    ∀ c ∈ childrenOf adj x, c ∈ keys d ∧ valD d c ≤ valD d x + 1
  sound : ∀ x ∈ keys d, x ∈ ball adj root (valD d x)


/-! ## Configuration constants (`tree.ts` lines 4–17)

Only the constants the claims refer to are embedded; decimal literals are
exact rationals. -/

/-- Spring constraint configuration: `{length, stiffness, damping}`. -/
structure SpringCfg where
  length : ℚ
  stiffness : ℚ
  damping : ℚ
deriving DecidableEq

namespace CFG

/-- Moderate spring settings for main branches. -/
def spring : SpringCfg := ⟨80, mkRat 3 100, mkRat 3 10⟩

/-- Very short, flexible springs for twigs. -/
def twigSpring : SpringCfg := ⟨20, mkRat 15 1000, mkRat 5 10⟩

/-- Even shorter springs for leaves. -/
def leafSpring : SpringCfg := ⟨15, mkRat 1 100, mkRat 6 10⟩

/-- Repulsion strength `k`. -/
def repulsionK : ℚ := 1

/-- Repulsion minimum distance (clamp floor). -/
def repulsionMin : ℚ := 26

/-- Repulsion maximum influence distance. -/
def repulsionMax : ℚ := 240

end CFG

/-! ## Tree construction (`tree.ts` lines 160–274, 276–355)

Bodies are modelled by their id label, collision group, and the two integer
layout seeds (depth and slot index within the depth layer) that, together
with the canvas size, determine the initial float position computed in
`makeBody`; the float position itself is not modelled. -/

/-- Model of a `Matter.Body` created by the tree builder. -/
structure RBody where
  label : String
  group : Int
  depthSeed : Nat
  slotSeed : Nat
deriving DecidableEq

/-- Model of a `TreeNode`: id, body, children array, and the spring
configuration plus `isLeaf` flag of the constraint created by `addChild`
for each child (`children` and `edges` are pushed in lockstep). -/
inductive TNode where
  | node (id : String) (body : RBody) (children : List TNode)
      (edges : List (SpringCfg × Bool)) : TNode

mutual

/-- Depth-first preorder traversal (`TreeNode.traverse`, lines 48–52),
collecting node ids in visit order — the order in which `buildTree` fills
`this.nodes`. -/
def traverseIds : TNode → List String
  | .node id _ ch _ => id :: traverseIdsL ch

/-- Traversal of a children array, left to right. -/
def traverseIdsL : List TNode → List String
  | [] => []
  | t :: ts => traverseIds t ++ traverseIdsL ts

end

mutual

/-- All `(spring configuration, isLeaf)` pairs of constraints reachable from
a node, in preorder. -/
def allEdges : TNode → List (SpringCfg × Bool)
  | .node _ _ ch es => es ++ allEdgesL ch

/-- Edge collection over a children array. -/
def allEdgesL : List TNode → List (SpringCfg × Bool)
  | [] => []
  | t :: ts => allEdges t ++ allEdgesL ts

end

mutual

/-- All bodies reachable from a node, in preorder. -/
def bodiesOf : TNode → List RBody
  | .node _ b ch _ => b :: bodiesL ch

/-- Body collection over a children array. -/
def bodiesL : List TNode → List RBody
  | [] => []
  | t :: ts => bodiesOf t ++ bodiesL ts

end

mutual

/-- Erase the two layout seeds from every body of a tree, keeping ids,
labels, groups, child structure and edge configurations: two builds whose
`strip`s agree differ at most in initial body positions. -/
def strip : TNode → TNode
  | .node id b ch es => .node id ⟨b.label, b.group, 0, 0⟩ (stripL ch) es

/-- Seed erasure over a children array. -/
def stripL : List TNode → List TNode
  | [] => []
  | t :: ts => strip t :: stripL ts

end

/-- Mutable state threaded through `buildRec`: the `bodyCache` map, the
`idxByDepth` map, and the position of the randomness oracle. -/
structure BState where
  cache : List (String × RBody)
  idx : List (Nat × Nat)
  ctr : Nat
deriving DecidableEq

/-- Initial builder state: empty caches, oracle at position 0. -/
def st0 : BState := ⟨[], [], 0⟩

/-- Lines 184–205: look up the node's depth (`?? 0`) and its running slot
index at that depth, bump the slot counter, and create the body (labelled
with the id, in collision group `g`). -/
def makeBody (g : Int) (depthM : List (String × Nat)) (id : String)
    (st : BState) : RBody × BState :=
  let d := (assocFind depthM id).getD 0
  let k := (assocFind st.idx d).getD 0
  (⟨id, g, d, k⟩, ⟨st.cache, assocSet st.idx d (k + 1), st.ctr⟩)

/-- Lines 207–209: `bodyCache.get(id) || (bodyCache.set(id, makeBody(id)),
bodyCache.get(id))`. -/
def getBody (g : Int) (depthM : List (String × Nat)) (id : String)
    (st : BState) : RBody × BState :=
  match assocFind st.cache id with
  | some b => (b, st)
  | none =>
      let r := makeBody g depthM id st
      (r.1, ⟨r.2.cache ++ [(id, r.1)], r.2.idx, r.2.ctr⟩)

/-- Label of the `i`-th mid-edge leaf body: `leaf_${parentNode.id}_${i}`. -/
def leafLabel (pid : String) (i : Nat) : String :=
  "leaf_" ++ pid ++ "_" ++ toString i

/-- Label of the `i`-th terminal leaf body:
`terminal_leaf_${terminalNode.id}_${i}`. -/
def termLeafLabel (pid : String) (i : Nat) : String :=
  "terminal_leaf_" ++ pid ++ "_" ++ toString i

/-- Leaf count drawn in `addLeafNodes`: `2 + Math.floor(Math.random() * 3)`,
so 2–4 leaves; any value of the oracle draw `r` yields one of those. -/
def numLeaves (r : Nat) : Nat := 2 + r % 3

/-- Leaf count drawn in `addTerminalLeaves`:
`3 + Math.floor(Math.random() * 4)`, so 3–6 leaves. -/
def numTermLeaves (r : Nat) : Nat := 3 + r % 4

/-- The childless leaf `TreeNode`s pushed by `addLeafNodes` (lines 276–315),
labelled `leaf_*` and inheriting the parent body's collision group. -/
def leafNodes (pid : String) (pg : Int) (n : Nat) : List TNode :=
  (List.range n).map fun i =>
    TNode.node (leafLabel pid i) ⟨leafLabel pid i, pg, 0, 0⟩ [] []

/-- The matching constraints: `CFG.leafSpring`, `isLeaf = true`. -/
def leafCfgs (n : Nat) : List (SpringCfg × Bool) :=
  (List.range n).map fun _ => (CFG.leafSpring, true)

/-- The childless leaf `TreeNode`s pushed by `addTerminalLeaves`
(lines 317–355), labelled `terminal_leaf_*`. -/
def termLeafNodes (pid : String) (pg : Int) (n : Nat) : List TNode :=
  (List.range n).map fun i =>
    TNode.node (termLeafLabel pid i) ⟨termLeafLabel pid i, pg, 0, 0⟩ [] []

/-- The matching constraints: `CFG.leafSpring`, `isLeaf = true`. -/
def termLeafCfgs (n : Nat) : List (SpringCfg × Bool) :=
  (List.range n).map fun _ => (CFG.leafSpring, true)

/-- The `for (const cid of children)` loop of `buildRec` (lines 215–224):
build each child with the builder `bld`, add the main `CFG.spring` edge,
and, when the parent's depth is positive, append 2–4 decorative leaves to
the parent's children (one oracle draw per child visit). -/
def buildKids (bld : String → BState → TNode × BState)
    (depthM : List (String × Nat)) (rng : Nat → Nat) (pid : String)
    (pg : Int) : List String → BState → List TNode × List (SpringCfg × Bool) × BState
  | [], st => ([], [], st)
  | cid :: cs, st =>
      let c := bld cid st
      let dec :=
        if 0 < (assocFind depthM pid).getD 0 then
          (leafNodes pid pg (numLeaves (rng c.2.ctr)),
           leafCfgs (numLeaves (rng c.2.ctr)),
           (⟨c.2.cache, c.2.idx, c.2.ctr + 1⟩ : BState))
        else ([], [], c.2)
      let rest := buildKids bld depthM rng pid pg cs dec.2.2
      (c.1 :: dec.1 ++ rest.1, (CFG.spring, false) :: dec.2.1 ++ rest.2.1,
       rest.2.2)

/-- Lines 211–232, with fuel bounding the recursion depth (the source has no
cycle check and recurses on the adjacency unconditionally): create or fetch
the node's body, recurse over the adjacency children, and give childless
nodes of positive depth 3–6 terminal leaves. -/
def buildRec (g : Int) (adj : List (String × List String))
    (depthM : List (String × Nat)) (rng : Nat → Nat) :
    Nat → String → BState → TNode × BState
  | 0, id, st =>
      let b := getBody g depthM id st
      (TNode.node id b.1 [] [], b.2)
  | fuel + 1, id, st =>
      let b := getBody g depthM id st
      let cs := childrenOf adj id
      let kids := buildKids (buildRec g adj depthM rng fuel) depthM rng id
        b.1.group cs b.2
      if cs = [] ∧ 0 < (assocFind depthM id).getD 0 then
        (TNode.node id b.1
            (kids.1 ++ termLeafNodes id b.1.group (numTermLeaves (rng kids.2.2.ctr)))
            (kids.2.1 ++ termLeafCfgs (numTermLeaves (rng kids.2.2.ctr))),
         ⟨kids.2.2.cache, kids.2.2.idx, kids.2.2.ctr + 1⟩)
      else
        (TNode.node id b.1 kids.1 kids.2.1, kids.2.2)

/-- Number of distinct directed paths of length at most `fuel` from `x` to
`t` in the adjacency (each path counted once); `buildRec` visits `t` exactly
this many times. -/
def pathCount (adj : List (String × List String)) :
    Nat → String → String → Nat
  | 0, x, t => if x = t then 1 else 0
  | fuel + 1, x, t =>
      (if x = t then 1 else 0)
        + ((childrenOf adj x).map fun c => pathCount adj fuel c t).sum

/-- JavaScript `a || b` on numbers (`0` is falsy). -/
def jsOr (a b : Int) : Int := if a = 0 then b else a

/-- Modelled from the library: a fresh `Bodies.circle` has
`collisionFilter.group = 0` (the matter-js default). -/
def circleDefaultGroup : Int := 0

/-- Lines 163–165: the collision group chosen once at the start of
`buildTree`, `-Math.abs(Bodies.circle(0,0,1).collisionFilter.group ||
Body.nextGroup(true))`, where `next` models the library's
`Body.nextGroup(true)` (a nonzero negative integer). -/
def chooseGroup (next : Int) : Int :=
  -(Int.natAbs (jsOr circleDefaultGroup next) : Int)

/-! ## Per-tick repulsion (`tree.ts` lines 375–398), over exact reals -/

/-- A body as the force pass sees it: position and accumulated force
(`Body.applyForce` at the body's own position adds to `body.force`). -/
structure PBody where
  pos : ℝ × ℝ
  force : ℝ × ℝ

/-- The inner loop body for one unordered pair (lines 380–396): square
distance, skip when zero, skip when `r > max`, otherwise apply
`k / max(r, min)²` along the line, negatively to `A` and positively to
`B`. -/
noncomputable def repApply (A B : PBody) : PBody × PBody :=
  let dx := B.pos.1 - A.pos.1
  let dy := B.pos.2 - A.pos.2
  let r2 := dx * dx + dy * dy
  if r2 = 0 then (A, B)
  else
    let r := Real.sqrt r2
    if r > (CFG.repulsionMax : ℝ) then (A, B)
    else
      let clamped := max r (CFG.repulsionMin : ℝ)
      let mag := (CFG.repulsionK : ℝ) / (clamped * clamped)
      let fx := dx / r * mag
      let fy := dy / r * mag
      (⟨A.pos, (A.force.1 - fx, A.force.2 - fy)⟩,
       ⟨B.pos, (B.force.1 + fx, B.force.2 + fy)⟩)

/-- The inner `for (let j = i + 1; ...)` loop: pair `A` with every later
body. -/
noncomputable def repInner (A : PBody) : List PBody → PBody × List PBody
  | [] => (A, [])
  | B :: rest =>
      let p := repApply A B
      let r := repInner p.1 rest
      (r.1, p.2 :: r.2)

/-- The outer `for (let i = 0; ...)` loop, fuelled by the number of
iterations left (it runs once per body, so `repPass` starts it at the list
length): every unordered pair of distinct bodies is visited exactly once. -/
noncomputable def repOuter : Nat → List PBody → List PBody
  | 0, l => l
  | _ + 1, [] => []
  | n + 1, A :: rest =>
      let p := repInner A rest
      p.1 :: repOuter n p.2

/-- The whole repulsion step (section 3 of `applyForces`). -/
noncomputable def repPass (l : List PBody) : List PBody := repOuter l.length l

/-! ## The `App` effect guard (`App.tsx` lines 9–48) -/

/-- One invocation of the `useEffect` body on a canvas: the state is
(`dataset.started` is set, number of `makeTree` calls so far); `present`
models `canvasRef.current` being non-null.  The effect runs only when the
ref is present and the `started` marker is unset, and sets the marker
before calling `makeTree`. -/
def appEffect (present : Bool) (s : Bool × Nat) : Bool × Nat :=
  if present && !s.1 then (true, s.2 + 1) else s

/-- A sequence of effect invocations on the same canvas element. -/
def runEffects : List Bool → Bool × Nat → Bool × Nat
  | [], s => s
  | p :: ps, s => runEffects ps (appEffect p s)

/-! ## Concrete inputs used by witnesses and counterexamples -/

/-- A diamond adjacency: two distinct paths lead from `r` to `c`. -/
def adjDiamond : List (String × List String) :=
  [("r", ["a", "b"]), ("a", ["c"]), ("b", ["c"])]

/-- A three-node chain adjacency. -/
def adjLine : List (String × List String) := [("r", ["a"]), ("a", ["b"])]

/-- A constant randomness oracle (smallest leaf counts). -/
def rng0 : Nat → Nat := fun _ => 0

/-- The BFS depth map of `adjLine`. -/
def depthLineA : List (String × Nat) := [("r", 0), ("a", 1), ("b", 2)]

/-- A depth map on the same ids with all depths zero. -/
def depthLineB : List (String × Nat) := [("r", 0), ("a", 0), ("b", 0)]

/-- A depth map on the same ids agreeing with `depthLineA` about which
depths are positive, but not about their values. -/
def depthLineC : List (String × Nat) := [("r", 0), ("a", 2), ("b", 4)]

/-- Witness body at the origin. -/
def pbA : PBody := ⟨(0, 0), (0, 0)⟩

/-- Witness body at distance 5 from the origin. -/
def pbB : PBody := ⟨(3, 4), (0, 0)⟩

/-! # Part 2: Theorems -/
theorem assocFind_cons_self {α β : Type} [DecidableEq α] (k : α) (v : β)
    (l : List (α × β)) : assocFind ((k, v) :: l) k = some v := by
  simp [assocFind]

theorem assocFind_cons_ne {α β : Type} [DecidableEq α] {x k : α} (v : β)
    (l : List (α × β)) (h : x ≠ k) :
    assocFind ((k, v) :: l) x = assocFind l x := by
  simp [assocFind, h]

theorem assocFind_isSome_iff {α β : Type} [DecidableEq α] (l : List (α × β))
    (x : α) : (assocFind l x).isSome = true ↔ x ∈ keys l := by
  induction l with
  | nil => simp [assocFind, keys]
  | cons p rest ih =>
      obtain ⟨k, v⟩ := p
      by_cases hx : x = k
      · subst hx; simp [assocFind, keys]
      · simp [assocFind, hx, keys] at ih ⊢
        exact ih

theorem assocFind_eq_none_iff {α β : Type} [DecidableEq α] (l : List (α × β))
    (x : α) : assocFind l x = none ↔ x ∉ keys l := by
  rw [← assocFind_isSome_iff]
  cases h : assocFind l x <;> simp [h]

theorem mem_keys_of_assocFind {α β : Type} [DecidableEq α] {l : List (α × β)}
    {x : α} {v : β} (h : assocFind l x = some v) : x ∈ keys l := by
  rw [← assocFind_isSome_iff, h]; rfl

section BfsThms

variable {α : Type} [DecidableEq α]

theorem childrenOf_subset_idUniverse (adj : List (α × List α)) (root p c : α)
    (hc : c ∈ childrenOf adj p) : c ∈ idUniverse adj root := by
  unfold idUniverse
  rw [List.mem_dedup]
  refine List.mem_cons_of_mem _ ?_
  unfold childrenOf at hc
  cases hfind : assocFind adj p with
  | none => rw [hfind] at hc; simp at hc
  | some cs =>
      rw [hfind] at hc
      simp only [Option.getD_some] at hc
      have hmem : (p, cs) ∈ adj := by
        clear hc
        induction adj with
        | nil => simp [assocFind] at hfind
        | cons pr rest ih =>
            obtain ⟨k, v⟩ := pr
            by_cases hp : p = k
            · subst hp
              rw [assocFind_cons_self] at hfind
              injection hfind with h
              subst h; exact List.mem_cons_self _ _
            · rw [assocFind_cons_ne _ _ hp] at hfind
              exact List.mem_cons_of_mem _ (ih hfind)
      clear hfind
      induction adj with
      | nil => simp at hmem
      | cons pr rest ih =>
          rcases List.mem_cons.mp hmem with h | h
          · subst h
            simpa using Or.inl hc
          · simp only [List.foldr_cons, List.mem_append]
            exact Or.inr (by simpa using ih h)

theorem root_mem_idUniverse (adj : List (α × List α)) (root : α) :
    root ∈ idUniverse adj root := by
  unfold idUniverse
  rw [List.mem_dedup]
  exact List.mem_cons_self _ _

theorem ball_succ_mem {adj : List (α × List α)} {s x : α} {n : Nat}
    (p : α) (hp : p ∈ ball adj s n) (hx : x ∈ childrenOf adj p) :
    x ∈ ball adj s (n + 1) := by
  unfold ball
  rw [List.mem_append]
  exact Or.inr (List.mem_flatMap.mpr ⟨p, hp, hx⟩)

theorem ball_mono_succ {adj : List (α × List α)} {s x : α} {n : Nat}
    (h : x ∈ ball adj s n) : x ∈ ball adj s (n + 1) := by
  unfold ball
  rw [List.mem_append]
  exact Or.inl h

end BfsThms

section BfsSpec

variable {α : Type} [DecidableEq α]

/-- Complete description of one pass of the children loop: it appends a
duplicate-free block `fresh` of previously unseen children to the queue,
binds each of them to `depth(p) + 1`, and leaves all existing bindings
untouched; afterwards every child of `p` has a binding. -/
theorem bfsVisit_spec (p : α) :
    ∀ (cs q : List α) (d : List (α × Nat)), p ∈ keys d →
    ∃ fresh : List α,
      (bfsVisit p cs (q, d)).1 = q ++ fresh
      ∧ keys (bfsVisit p cs (q, d)).2 = fresh.reverse ++ keys d
      ∧ fresh.Nodup
      ∧ (∀ x ∈ fresh, x ∈ cs ∧ x ∉ keys d)
      ∧ (∀ x ∈ keys d, assocFind (bfsVisit p cs (q, d)).2 x = assocFind d x)
      ∧ (∀ x ∈ fresh, assocFind (bfsVisit p cs (q, d)).2 x = some (valD d p + 1))
      ∧ (∀ c ∈ cs, c ∈ keys (bfsVisit p cs (q, d)).2) := by
  intro cs
  induction cs with
  | nil =>
      intro q d _
      exact ⟨[], by simp [bfsVisit], by simp [bfsVisit], List.nodup_nil,
        by simp, by simp [bfsVisit], by simp, by simp⟩
  | cons c cs ih =>
      intro q d hp
      by_cases hc : (assocFind d c).isSome = true
      · have hcK : c ∈ keys d := (assocFind_isSome_iff d c).mp hc
        have hstep : bfsVisit p (c :: cs) (q, d) = bfsVisit p cs (q, d) := by
          simp [bfsVisit, hc]
        obtain ⟨fresh, h1, h2, h3, h4, h5, h6, h7⟩ := ih q d hp
        refine ⟨fresh, ?_, ?_, h3, ?_, ?_, ?_, ?_⟩
        · rw [hstep]; exact h1
        · rw [hstep]; exact h2
        · intro x hx
          exact ⟨List.mem_cons_of_mem _ (h4 x hx).1, (h4 x hx).2⟩
        · rw [hstep]; exact h5
        · rw [hstep]; exact h6
        · intro c' hc'
          rw [hstep]
          rcases List.mem_cons.mp hc' with h | h
          · subst h
            rw [h2, List.mem_append]
            exact Or.inr hcK
          · exact h7 c' h
      · have hcK : c ∉ keys d := by
          rw [← assocFind_isSome_iff]
          simpa using hc
        have hstep : bfsVisit p (c :: cs) (q, d)
            = bfsVisit p cs (q ++ [c], (c, (assocFind d p).getD 0 + 1) :: d) := by
          simp [bfsVisit, hc]
        set d1 : List (α × Nat) := (c, (assocFind d p).getD 0 + 1) :: d with hd1
        have hpd1 : p ∈ keys d1 := by
          simp only [hd1, keys, List.map_cons]
          exact List.mem_cons_of_mem _ hp
        have hpc : p ≠ c := fun h => hcK (h ▸ hp)
        obtain ⟨fresh, h1, h2, h3, h4, h5, h6, h7⟩ := ih (q ++ [c]) d1 hpd1
        have hkeys1 : keys d1 = c :: keys d := by simp [hd1, keys]
        refine ⟨c :: fresh, ?_, ?_, ?_, ?_, ?_, ?_, ?_⟩
        · rw [hstep, h1, List.append_assoc]; rfl
        · rw [hstep, h2, hkeys1]
          simp [List.append_assoc]
        · refine List.nodup_cons.mpr ⟨?_, h3⟩
          intro hmem
          have := (h4 c hmem).2
          rw [hkeys1] at this
          exact this (List.mem_cons_self _ _)
        · intro x hx
          rcases List.mem_cons.mp hx with h | h
          · subst h
            exact ⟨List.mem_cons_self _ _, hcK⟩
          · obtain ⟨hxc, hxd1⟩ := h4 x h
            rw [hkeys1] at hxd1
            exact ⟨List.mem_cons_of_mem _ hxc,
              fun hxd => hxd1 (List.mem_cons_of_mem _ hxd)⟩
        · intro x hx
          have hx1 : x ∈ keys d1 := by
            rw [hkeys1]; exact List.mem_cons_of_mem _ hx
          have hxc : x ≠ c := fun h => hcK (h ▸ hx)
          rw [hstep, h5 x hx1, hd1, assocFind_cons_ne _ _ hxc]
        · intro x hx
          have hvald1 : valD d1 p = valD d p := by
            simp only [valD, hd1, assocFind_cons_ne _ _ hpc]
          rcases List.mem_cons.mp hx with h | h
          · subst h
            have hcK1 : x ∈ keys d1 := by
              rw [hkeys1]; exact List.mem_cons_self _ _
            rw [hstep, h5 x hcK1, hd1, assocFind_cons_self]
            rfl
          · rw [hstep, h6 x h, hvald1]
        · intro c' hc'
          rcases List.mem_cons.mp hc' with h | h
          · subst h
            rw [hstep, h2, List.mem_append, hkeys1]
            exact Or.inr (List.mem_cons_self _ _)
          · rw [hstep]; exact h7 c' h

end BfsSpec

section BfsLoopInv

variable {α : Type} [DecidableEq α]

/-- Main BFS lemma: starting from any state satisfying the invariant, with
fuel at least `|universe| - |keys| + |queue|` (written additively), the loop
drains the queue, preserves the invariant (so the final map is closed and
sound), and never changes an existing binding. -/
theorem bfsLoop_inv (adj : List (α × List α)) (root : α) :
    ∀ (fuel : Nat) (q : List α) (d : List (α × Nat)),
    BfsInv adj root q d →
    (idUniverse adj root).length + q.length ≤ fuel + (keys d).length →
    (bfsLoop adj fuel q d).2 = []
    ∧ BfsInv adj root [] (bfsLoop adj fuel q d).1
    ∧ (∀ x ∈ keys d, assocFind (bfsLoop adj fuel q d).1 x = assocFind d x) := by
  intro fuel
  induction fuel with
  | zero =>
      intro q d inv hm
      have hdU : (keys d).length ≤ (idUniverse adj root).length :=
        (List.subperm_of_subset inv.nodK inv.subU).length_le
      have hq : q = [] := List.length_eq_zero.mp (by omega)
      subst hq
      refine ⟨rfl, ?_, fun x _ => rfl⟩
      exact inv
  | succ fuel ih =>
      intro q d inv hm
      match q with
      | [] =>
          refine ⟨rfl, ?_, fun x _ => rfl⟩
          exact inv
      | p :: q =>
          have hpK : p ∈ keys d := inv.qSub p (List.mem_cons_self _ _)
          obtain ⟨fresh, h1, h2, h3, h4, h5, h6, h7⟩ :=
            bfsVisit_spec p (childrenOf adj p) q d hpK
          set s := bfsVisit p (childrenOf adj p) (q, d) with hs
          have hstep : bfsLoop adj (fuel + 1) (p :: q) d = bfsLoop adj fuel s.1 s.2 := by
            rw [bfsLoop]
          have memKeysS : ∀ x, x ∈ keys s.2 ↔ x ∈ fresh ∨ x ∈ keys d := by
            intro x
            rw [h2, List.mem_append, List.mem_reverse]
          have valS_old : ∀ x ∈ keys d, valD s.2 x = valD d x := by
            intro x hx
            unfold valD
            rw [h5 x hx]
          have valS_fresh : ∀ x ∈ fresh, valD s.2 x = valD d p + 1 := by
            intro x hx
            unfold valD
            rw [h6 x hx]
            rfl
          have hq_tail_keys : ∀ x ∈ q, x ∈ keys d := fun x hx =>
            inv.qSub x (List.mem_cons_of_mem _ hx)
          have hq_fresh_disj : ∀ x ∈ q, x ∉ fresh := fun x hx hf =>
            (h4 x hf).2 (hq_tail_keys x hx)
          have hp_head_le : ∀ b ∈ q, valD d p ≤ valD d b :=
            (List.pairwise_cons.mp inv.sortQ).1
          have hp_not_fresh : p ∉ fresh := fun hf => (h4 p hf).2 hpK
          have inv' : BfsInv adj root s.1 s.2 := by
            refine ⟨?_, ?_, ?_, ?_, ?_, ?_, ?_, ?_⟩
            · rw [h2]
              exact (List.nodup_reverse.mpr h3).append inv.nodK
                (fun x hx => (h4 x (List.mem_reverse.mp hx)).2)
            · intro x hx
              rcases (memKeysS x).mp hx with h | h
              · exact childrenOf_subset_idUniverse adj root p x (h4 x h).1
              · exact inv.subU x h
            · intro x hx
              rw [h1, List.mem_append] at hx
              rcases hx with h | h
              · exact (memKeysS x).mpr (Or.inr (hq_tail_keys x h))
              · exact mem_keys_of_assocFind (h6 x h)
            · rw [h1]
              exact ((List.nodup_cons.mp inv.qNod).2).append h3 hq_fresh_disj
            · rw [h1, List.pairwise_append]
              refine ⟨?_, ?_, ?_⟩
              · refine List.Pairwise.imp_of_mem ?_ (List.pairwise_cons.mp inv.sortQ).2
                intro a b ha hb hr
                rw [valS_old a (hq_tail_keys a ha), valS_old b (hq_tail_keys b hb)]
                exact hr
              · refine List.Pairwise.imp_of_mem ?_ h3
                intro a b ha hb _
                rw [valS_fresh a ha, valS_fresh b hb]
              · intro a ha b hb
                rw [valS_old a (hq_tail_keys a ha), valS_fresh b hb]
                exact inv.allB p (List.mem_cons_self _ _) a (hq_tail_keys a ha)
            · intro p' hp' x hx
              rw [h1, List.mem_append] at hp'
              rcases (memKeysS x).mp hx with hxf | hxd
              · rcases hp' with h | h
                · rw [valS_fresh x hxf, valS_old p' (hq_tail_keys p' h)]
                  exact Nat.add_le_add_right (hp_head_le p' h) 1
                · rw [valS_fresh x hxf, valS_fresh p' h]
                  omega
              · rcases hp' with h | h
                · rw [valS_old x hxd, valS_old p' (hq_tail_keys p' h)]
                  exact inv.allB p' (List.mem_cons_of_mem _ h) x hxd
                · rw [valS_old x hxd, valS_fresh p' h]
                  have := inv.allB p (List.mem_cons_self _ _) x hxd
                  omega
            · intro x hx hxq
              rw [h1, List.mem_append] at hxq
              push_neg at hxq
              rcases (memKeysS x).mp hx with hxf | hxd
              · exact absurd hxf hxq.2
              · by_cases hxp : x = p
                · subst hxp
                  intro c hc
                  refine ⟨h7 c hc, ?_⟩
                  rcases (memKeysS c).mp (h7 c hc) with hcf | hcd
                  · rw [valS_fresh c hcf, valS_old x hxd]
                  · rw [valS_old c hcd, valS_old x hxd]
                    exact inv.allB x (List.mem_cons_self _ _) c hcd
                · intro c hc
                  have hxnq : x ∉ p :: q := by
                    intro hmem
                    rcases List.mem_cons.mp hmem with h | h
                    · exact hxp h
                    · exact hxq.1 h
                  obtain ⟨hcK, hcv⟩ := inv.closedK x hxd hxnq c hc
                  refine ⟨(memKeysS c).mpr (Or.inr hcK), ?_⟩
                  rw [valS_old c hcK, valS_old x hxd]
                  exact hcv
            · intro x hx
              rcases (memKeysS x).mp hx with hxf | hxd
              · rw [valS_fresh x hxf]
                exact ball_succ_mem p (inv.sound p hpK) (h4 x hxf).1
              · rw [valS_old x hxd]
                exact inv.sound x hxd
          have hlen1 : s.1.length = q.length + fresh.length := by
            rw [h1, List.length_append]
          have hlen2 : (keys s.2).length = fresh.length + (keys d).length := by
            rw [h2, List.length_append, List.length_reverse]
          have hm' : (idUniverse adj root).length + s.1.length
              ≤ fuel + (keys s.2).length := by
            simp only [List.length_cons] at hm
            omega
          obtain ⟨r1, r2, r3⟩ := ih s.1 s.2 inv' hm'
          refine ⟨by rw [hstep]; exact r1, by rw [hstep]; exact r2, ?_⟩
          intro x hx
          rw [hstep, r3 x ((memKeysS x).mpr (Or.inr hx)), h5 x hx]

end BfsLoopInv

section BfsFinal

variable {α : Type} [DecidableEq α]

theorem assocFind_eq_valD {l : List (α × Nat)} {x : α} (h : x ∈ keys l) :
    assocFind l x = some (valD l x) := by
  rw [← assocFind_isSome_iff] at h
  cases hf : assocFind l x with
  | none => rw [hf] at h; simp at h
  | some v => simp [valD, hf]

/-- The initial BFS state `depth = Map([[rootId, 0]])`, `q = [rootId]`
satisfies the loop invariant. -/
theorem bfsInv_init (adj : List (α × List α)) (root : α) :
    BfsInv adj root [root] [(root, 0)] := by
  refine ⟨?_, ?_, ?_, ?_, ?_, ?_, ?_, ?_⟩
  · simp [keys]
  · intro x hx
    simp [keys] at hx
    rw [hx]
    exact root_mem_idUniverse adj root
  · intro x hx
    simp at hx
    subst hx
    simp [keys]
  · simp
  · simp
  · intro p hp x hx
    simp at hp
    simp [keys] at hx
    subst hp
    subst hx
    omega
  · intro x hx hxq
    simp [keys] at hx
    subst hx
    simp at hxq
  · intro x hx
    simp [keys] at hx
    subst hx
    simp [valD, assocFind, ball]

/-- Running the loop with fuel `|idUniverse|` yields a closed, sound depth
map that still binds the root to `0`. -/
theorem bfsDepth_spec (adj : List (α × List α)) (root : α) :
    BfsInv adj root [] (bfsDepth adj root)
    ∧ assocFind (bfsDepth adj root) root = some 0 := by
  have hm : (idUniverse adj root).length + ([root] : List α).length
      ≤ (idUniverse adj root).length + (keys [(root, (0 : Nat))]).length := by
    simp [keys]
  obtain ⟨h1, h2, h3⟩ := bfsLoop_inv adj root (idUniverse adj root).length
    [root] [(root, 0)] (bfsInv_init adj root) hm
  refine ⟨h2, ?_⟩
  have hr : root ∈ keys [(root, (0 : Nat))] := by simp [keys]
  rw [bfsDepth, h3 root hr]
  simp [assocFind]

/-- Completeness with depth bounds: every id within `m` steps of the root
has a binding of value at most `m` in the final depth map. -/
theorem ball_covered (adj : List (α × List α)) (root : α) :
    ∀ (m : Nat) (x : α), x ∈ ball adj root m →
    ∃ v, assocFind (bfsDepth adj root) x = some v ∧ v ≤ m := by
  obtain ⟨inv, hroot⟩ := bfsDepth_spec adj root
  intro m
  induction m with
  | zero =>
      intro x hx
      simp [ball] at hx
      subst hx
      exact ⟨0, hroot, Nat.le_refl 0⟩
  | succ m ih =>
      intro x hx
      rw [ball, List.mem_append] at hx
      rcases hx with h | h
      · obtain ⟨v, hv, hle⟩ := ih x h
        exact ⟨v, hv, Nat.le_succ_of_le hle⟩
      · rw [List.mem_flatMap] at h
        obtain ⟨p, hp, hchild⟩ := h
        obtain ⟨vp, hvp, hvple⟩ := ih p hp
        have hpK : p ∈ keys (bfsDepth adj root) := mem_keys_of_assocFind hvp
        obtain ⟨hcK, hcv⟩ := inv.closedK p hpK (by simp) x hchild
        refine ⟨valD (bfsDepth adj root) x, assocFind_eq_valD hcK, ?_⟩
        have hvpv : valD (bfsDepth adj root) p = vp := by simp [valD, hvp]
        omega

/-- **C1**: for every adjacency list and root id, the depth value the
breadth-first loop of `buildTree` assigns to a node equals the length of
the shortest path from the root to that node in the adjacency graph (the
least `n` with a directed path of length at most `n`), and exactly the
reachable nodes get a depth. -/
theorem bfs_depth_eq_shortest_path (adj : List (α × List α)) (root x : α)
    (n : Nat) :
    assocFind (bfsDepth adj root) x = some n
    ↔ x ∈ ball adj root n ∧ ∀ m, x ∈ ball adj root m → n ≤ m := by
  obtain ⟨inv, _⟩ := bfsDepth_spec adj root
  constructor
  · intro h
    have hxK : x ∈ keys (bfsDepth adj root) := mem_keys_of_assocFind h
    have hval : valD (bfsDepth adj root) x = n := by simp [valD, h]
    constructor
    · have hs := inv.sound x hxK
      rwa [hval] at hs
    · intro m hm
      obtain ⟨v, hv, hle⟩ := ball_covered adj root m x hm
      rw [h] at hv
      injection hv with hv
      omega
  · rintro ⟨hball, hmin⟩
    obtain ⟨v, hv, hle⟩ := ball_covered adj root n x hball
    have hxK := mem_keys_of_assocFind hv
    have hsound := inv.sound x hxK
    have hvv : valD (bfsDepth adj root) x = v := by simp [valD, hv]
    rw [hvv] at hsound
    have hnv := hmin v hsound
    have hveq : v = n := Nat.le_antisymm hle hnv
    rw [hveq] at hv
    exact hv

/-- **C8**: the breadth-first loop terminates on every finite adjacency,
cyclic or not: a node is enqueued only when it has no depth binding yet, so
there is at most one dequeue per distinct reachable id, and fuel equal to
the size of the id universe drains the queue completely. -/
theorem bfs_terminates_within_universe (adj : List (α × List α)) (root : α) :
    (bfsLoop adj (idUniverse adj root).length [root] [(root, 0)]).2 = [] := by
  have hm : (idUniverse adj root).length + ([root] : List α).length
      ≤ (idUniverse adj root).length + (keys [(root, (0 : Nat))]).length := by
    simp [keys]
  exact (bfsLoop_inv adj root (idUniverse adj root).length
    [root] [(root, 0)] (bfsInv_init adj root) hm).1

end BfsFinal

/-- Witness for C1 at a concrete input: in the diamond adjacency the node
`c` is bound to depth 2, obtained from the characterization theorem with
its right-hand side discharged concretely. -/
theorem bfs_depth_eq_shortest_path_witness :
    assocFind (bfsDepth adjDiamond "r") "c" = some 2 := by
  refine (bfs_depth_eq_shortest_path adjDiamond "r" "c" 2).mpr ⟨by decide, ?_⟩
  intro m hm
  match m with
  | 0 => revert hm; decide
  | 1 => revert hm; decide
  | k + 2 => omega

/-- Accumulated call count of `runEffects` only grows by one while the
`started` marker is unset, and the marker is never unset. -/
theorem runEffects_bound : ∀ (ps : List Bool) (s : Bool × Nat),
    (runEffects ps s).2 ≤ s.2 + (if s.1 then 0 else 1) := by
  intro ps
  induction ps with
  | nil =>
      intro s
      cases s.1 <;> simp [runEffects]
  | cons p ps ih =>
      intro s
      rw [runEffects]
      rcases hp : p with _ | _ <;> rcases hs : s.1 with _ | _
      · have := ih s
        simp [appEffect, hp, hs] at this ⊢
        omega
      · have := ih s
        simp [appEffect, hp, hs] at this ⊢
        omega
      · have := ih (true, s.2 + 1)
        simp [appEffect, hp, hs] at this ⊢
        omega
      · have := ih s
        simp [appEffect, hp, hs] at this ⊢
        omega

/-- **C7**: on a canvas whose `started` marker is initially unset, any
sequence of `useEffect` invocations (with the ref present or not at each
one) calls `makeTree` at most once: the marker set on the canvas before the
first call guards every later invocation. -/
theorem makeTree_called_at_most_once (ps : List Bool) :
    (runEffects ps (false, 0)).2 ≤ 1 := by
  have h := runEffects_bound ps (false, 0)
  simpa using h

theorem traverseIdsL_append (l1 l2 : List TNode) :
    traverseIdsL (l1 ++ l2) = traverseIdsL l1 ++ traverseIdsL l2 := by
  induction l1 with
  | nil => simp [traverseIdsL]
  | cons t ts ih => simp [traverseIdsL, ih]

/-- Traversing a list of childless nodes yields their ids. -/
theorem traverseIdsL_childless (f : Nat → String) (g : Nat → RBody)
    (l : List Nat) :
    traverseIdsL (l.map fun i => TNode.node (f i) (g i) [] []) = l.map f := by
  induction l with
  | nil => rfl
  | cons i l ih => simp [traverseIdsL, traverseIds, ih]

theorem traverseIdsL_leafNodes (pid : String) (pg : Int) (n : Nat) :
    traverseIdsL (leafNodes pid pg n) = (List.range n).map (leafLabel pid) := by
  rw [leafNodes, traverseIdsL_childless]

theorem traverseIdsL_termLeafNodes (pid : String) (pg : Int) (n : Nat) :
    traverseIdsL (termLeafNodes pid pg n) = (List.range n).map (termLeafLabel pid) := by
  rw [termLeafNodes, traverseIdsL_childless]

theorem count_traverseIdsL_leafNodes {t : String} (pid : String) (pg : Int)
    (n : Nat) (hleaf : ∀ pid' i, t ≠ leafLabel pid' i) :
    (traverseIdsL (leafNodes pid pg n)).count t = 0 := by
  rw [traverseIdsL_leafNodes, List.count_eq_zero]
  intro hmem
  obtain ⟨i, _, hi⟩ := List.mem_map.mp hmem
  exact hleaf pid i hi.symm

theorem count_traverseIdsL_termLeafNodes {t : String} (pid : String) (pg : Int)
    (n : Nat) (hterm : ∀ pid' i, t ≠ termLeafLabel pid' i) :
    (traverseIdsL (termLeafNodes pid pg n)).count t = 0 := by
  rw [traverseIdsL_termLeafNodes, List.count_eq_zero]
  intro hmem
  obtain ⟨i, _, hi⟩ := List.mem_map.mp hmem
  exact hterm pid i hi.symm

/-- The children loop contributes, per child `c`, exactly the occurrence
count of the subtree built for `c`; decorative leaves contribute nothing to
the count of a non-decorative id. -/
theorem count_traverseIdsL_buildKids (bld : String → BState → TNode × BState)
    (depthM : List (String × Nat)) (rng : Nat → Nat) (pid : String)
    (pg : Int) (t : String) (f : String → Nat)
    (hb : ∀ id st, (traverseIds (bld id st).1).count t = f id)
    (hleaf : ∀ pid' i, t ≠ leafLabel pid' i) :
    ∀ (cs : List String) (st : BState),
    (traverseIdsL (buildKids bld depthM rng pid pg cs st).1).count t
      = (cs.map f).sum := by
  intro cs
  induction cs with
  | nil =>
      intro st
      simp [buildKids, traverseIdsL]
  | cons cid cs ih =>
      intro st
      by_cases hg : 0 < (assocFind depthM pid).getD 0
      · simp only [buildKids, if_pos hg, List.append_eq, traverseIdsL,
          traverseIdsL_append, List.count_append, List.map_cons,
          List.sum_cons, hb, ih, count_traverseIdsL_leafNodes pid pg _ hleaf]
        omega
      · simp only [buildKids, if_neg hg, List.append_eq, List.nil_append,
          traverseIdsL, traverseIdsL_append, List.count_append,
          List.map_cons, List.sum_cons, hb, ih]

/-- Core counting lemma for C2: for an id that is not of decorative label
form, its occurrence count in the preorder node list of `buildRec` equals
the number of distinct adjacency paths (of length at most the fuel) from
the build root to it, regardless of the builder state. -/
theorem count_traverse_buildRec (g : Int) (adj : List (String × List String))
    (depthM : List (String × Nat)) (rng : Nat → Nat) (t : String)
    (hleaf : ∀ pid i, t ≠ leafLabel pid i)
    (hterm : ∀ pid i, t ≠ termLeafLabel pid i) :
    ∀ (fuel : Nat) (id : String) (st : BState),
    (traverseIds (buildRec g adj depthM rng fuel id st).1).count t
      = pathCount adj fuel id t := by
  intro fuel
  induction fuel with
  | zero =>
      intro id st
      simp only [buildRec, traverseIds, traverseIdsL, pathCount]
      simp [List.count_cons, beq_iff_eq]
  | succ fuel ih =>
      intro id st
      have hkids := count_traverseIdsL_buildKids (buildRec g adj depthM rng fuel)
        depthM rng id (getBody g depthM id st).1.group t
        (fun c => pathCount adj fuel c t) (fun id st => ih id st) hleaf
      by_cases hg : childrenOf adj id = [] ∧ 0 < (assocFind depthM id).getD 0
      · simp only [buildRec, if_pos hg, List.append_eq, traverseIds,
          traverseIdsL_append, List.count_cons, List.count_append, pathCount,
          hkids, count_traverseIdsL_termLeafNodes id _ _ hterm]
        by_cases h : id = t <;> simp [h, beq_iff_eq] <;> omega
      · simp only [buildRec, if_neg hg, List.append_eq, traverseIds,
          List.count_cons, pathCount, hkids]
        by_cases h : id = t <;> simp [h, beq_iff_eq] <;> omega

/-- **C2** (amended): in the node list collected by traversing the tree
built by `buildTree`, every id not of decorative label form appears once
per distinct adjacency path from the root to it (within the recursion
depth); in particular a node reachable along exactly one path appears
exactly once, but a node reachable along several paths appears several
times. -/
theorem nodes_count_eq_path_count (g : Int) (adj : List (String × List String))
    (depthM : List (String × Nat)) (rng : Nat → Nat) (fuel : Nat)
    (root t : String) (st : BState)
    (hleaf : ∀ pid i, t ≠ leafLabel pid i)
    (hterm : ∀ pid i, t ≠ termLeafLabel pid i) :
    (traverseIds (buildRec g adj depthM rng fuel root st).1).count t
      = pathCount adj fuel root t :=
  count_traverse_buildRec g adj depthM rng t hleaf hterm fuel root st

/-- Counterexample to **C2** as stated: in the diamond adjacency the node
`c` is reachable from the root (within two steps) but occurs twice, not
once, in the node list of the constructed tree. -/
theorem nodes_count_counterexample :
    "c" ∈ ball adjDiamond "r" 2
    ∧ (traverseIds (buildRec (-1) adjDiamond (bfsDepth adjDiamond "r") rng0 4
        "r" st0).1).count "c" = 2
    ∧ (traverseIds (buildRec (-1) adjDiamond (bfsDepth adjDiamond "r") rng0 4
        "r" st0).1).count "c" ≠ 1 := by
  refine ⟨by decide, by decide, by decide⟩

/-- Witness for the amended C2 on the chain adjacency: `b` is not a
decorative label (length mismatch with both decorative label forms), and
its count in the node list equals its path count. -/
theorem nodes_count_eq_path_count_witness :
    (∀ pid i, "b" ≠ leafLabel pid i)
    ∧ (∀ pid i, "b" ≠ termLeafLabel pid i)
    ∧ (traverseIds (buildRec (-1) adjLine depthLineA rng0 3 "r" st0).1).count "b"
        = pathCount adjLine 3 "r" "b" := by
  have h5 : "leaf_".length = 5 := rfl
  have h14 : "terminal_leaf_".length = 14 := rfl
  have h1 : "_".length = 1 := rfl
  have hb : "b".length = 1 := rfl
  have hleaf : ∀ pid i, "b" ≠ leafLabel pid i := by
    intro pid i h
    have hlen := congrArg String.length h
    simp [leafLabel, String.length_append, h5, h1, hb] at hlen
    omega
  have hterm : ∀ pid i, "b" ≠ termLeafLabel pid i := by
    intro pid i h
    have hlen := congrArg String.length h
    simp [termLeafLabel, String.length_append, h14, h1, hb] at hlen
    omega
  exact ⟨hleaf, hterm,
    nodes_count_eq_path_count (-1) adjLine depthLineA rng0 3 "r" "b" st0
      hleaf hterm⟩

theorem assocFind_mem {α β : Type} [DecidableEq α] {l : List (α × β)} {x : α}
    {v : β} (h : assocFind l x = some v) : (x, v) ∈ l := by
  induction l with
  | nil => simp [assocFind] at h
  | cons p rest ih =>
      obtain ⟨k, w⟩ := p
      by_cases hx : x = k
      · subst hx
        rw [assocFind_cons_self] at h
        injection h with h
        subst h
        exact List.mem_cons_self _ _
      · rw [assocFind_cons_ne _ _ hx] at h
        exact List.mem_cons_of_mem _ (ih h)

theorem allEdgesL_append (l1 l2 : List TNode) :
    allEdgesL (l1 ++ l2) = allEdgesL l1 ++ allEdgesL l2 := by
  induction l1 with
  | nil => simp [allEdgesL]
  | cons t ts ih => simp [allEdgesL, ih]

/-- Childless, edgeless nodes contribute no edges. -/
theorem allEdgesL_childless (f : Nat → String) (g : Nat → RBody)
    (l : List Nat) :
    allEdgesL (l.map fun i => TNode.node (f i) (g i) [] []) = [] := by
  induction l with
  | nil => rfl
  | cons i l ih => simp [allEdgesL, allEdges, ih]

theorem allEdgesL_leafNodes (pid : String) (pg : Int) (n : Nat) :
    allEdgesL (leafNodes pid pg n) = [] := by
  rw [leafNodes, allEdgesL_childless]

theorem allEdgesL_termLeafNodes (pid : String) (pg : Int) (n : Nat) :
    allEdgesL (termLeafNodes pid pg n) = [] := by
  rw [termLeafNodes, allEdgesL_childless]

theorem mem_leafCfgs {e : SpringCfg × Bool} {n : Nat} (h : e ∈ leafCfgs n) :
    e = (CFG.leafSpring, true) := by
  rw [leafCfgs] at h
  obtain ⟨i, _, hi⟩ := List.mem_map.mp h
  exact hi.symm

theorem mem_termLeafCfgs {e : SpringCfg × Bool} {n : Nat}
    (h : e ∈ termLeafCfgs n) : e = (CFG.leafSpring, true) := by
  rw [termLeafCfgs] at h
  obtain ⟨i, _, hi⟩ := List.mem_map.mp h
  exact hi.symm

/-- Every decorative (flagged) constraint produced by the children loop has
the `CFG.leafSpring` configuration. -/
theorem buildKids_decor_edges (bld : String → BState → TNode × BState)
    (depthM : List (String × Nat)) (rng : Nat → Nat) (pid : String) (pg : Int)
    (hb : ∀ id st e, e ∈ allEdges (bld id st).1 → e.2 = true
      → e.1 = CFG.leafSpring) :
    ∀ (cs : List String) (st : BState) (e : SpringCfg × Bool),
    (e ∈ (buildKids bld depthM rng pid pg cs st).2.1
      ∨ e ∈ allEdgesL (buildKids bld depthM rng pid pg cs st).1) →
    e.2 = true → e.1 = CFG.leafSpring := by
  intro cs
  induction cs with
  | nil =>
      intro st e he
      simp [buildKids, allEdgesL] at he
  | cons cid cs ih =>
      intro st e he htrue
      by_cases hg : 0 < (assocFind depthM pid).getD 0
      · simp only [buildKids, if_pos hg, List.append_eq, allEdgesL,
          allEdgesL_append, allEdgesL_leafNodes, List.mem_cons,
          List.mem_append, List.not_mem_nil, or_false, false_or] at he
        rcases he with ((he | he) | he) | he | he
        · rw [he] at htrue
          simp at htrue
        · exact (mem_leafCfgs he ▸ rfl : e.1 = CFG.leafSpring)
        · exact ih _ e (Or.inl he) htrue
        · exact hb cid st e he htrue
        · exact ih _ e (Or.inr he) htrue
      · simp only [buildKids, if_neg hg, List.append_eq, List.nil_append,
          allEdgesL, allEdgesL_append, List.mem_cons, List.mem_append,
          List.not_mem_nil, or_false, false_or] at he
        rcases he with (he | he) | he | he
        · rw [he] at htrue
          simp at htrue
        · exact ih _ e (Or.inl he) htrue
        · exact hb cid _ e he htrue
        · exact ih _ e (Or.inr he) htrue

/-- Every decorative constraint anywhere in the built tree has the
`CFG.leafSpring` configuration. -/
theorem buildRec_decor_edges (g : Int) (adj : List (String × List String))
    (depthM : List (String × Nat)) (rng : Nat → Nat) :
    ∀ (fuel : Nat) (id : String) (st : BState) (e : SpringCfg × Bool),
    e ∈ allEdges (buildRec g adj depthM rng fuel id st).1 → e.2 = true
    → e.1 = CFG.leafSpring := by
  intro fuel
  induction fuel with
  | zero =>
      intro id st e he
      simp [buildRec, allEdges, allEdgesL] at he
  | succ fuel ih =>
      intro id st e he htrue
      have hkids := buildKids_decor_edges (buildRec g adj depthM rng fuel)
        depthM rng id (getBody g depthM id st).1.group ih
      by_cases hg : childrenOf adj id = [] ∧ 0 < (assocFind depthM id).getD 0
      · simp only [buildRec, if_pos hg, allEdges, List.append_eq,
          allEdgesL_append, allEdgesL_termLeafNodes, List.mem_append,
          List.not_mem_nil, or_false] at he
        rcases he with (he | he) | he
        · exact hkids _ _ e (Or.inl he) htrue
        · exact (mem_termLeafCfgs he ▸ rfl : e.1 = CFG.leafSpring)
        · exact hkids _ _ e (Or.inr he) htrue
      · simp only [buildRec, if_neg hg, allEdges, List.mem_append] at he
        rcases he with he | he
        · exact hkids _ _ e (Or.inl he) htrue
        · exact hkids _ _ e (Or.inr he) htrue

/-- **C6**: the decorative spring variants are strictly shorter and softer
than the main branch spring — twig (20, 0.015) and leaf (15, 0.01) both
compare below main (80, 0.03) — and every decorative constraint the builder
creates carries one of these two variant configurations (concretely, always
the leaf one: `twigSpring` is defined but never used). -/
theorem decor_springs_shorter_and_softer (g : Int)
    (adj : List (String × List String)) (depthM : List (String × Nat))
    (rng : Nat → Nat) (fuel : Nat) (root : String) (st : BState) :
    CFG.twigSpring.length < CFG.spring.length
    ∧ CFG.twigSpring.stiffness < CFG.spring.stiffness
    ∧ CFG.leafSpring.length < CFG.spring.length
    ∧ CFG.leafSpring.stiffness < CFG.spring.stiffness
    ∧ CFG.twigSpring.length = 20 ∧ CFG.twigSpring.stiffness = 0.015
    ∧ CFG.leafSpring.length = 15 ∧ CFG.leafSpring.stiffness = 0.01
    ∧ CFG.spring.length = 80 ∧ CFG.spring.stiffness = 0.03
    ∧ ∀ e ∈ allEdges (buildRec g adj depthM rng fuel root st).1,
        e.2 = true → e.1 = CFG.twigSpring ∨ e.1 = CFG.leafSpring := by
  refine ⟨by decide, by decide, by decide, by decide, by decide,
    by norm_num [CFG.twigSpring], by decide, by norm_num [CFG.leafSpring],
    by decide, by norm_num [CFG.spring], ?_⟩
  intro e he htrue
  exact Or.inr (buildRec_decor_edges g adj depthM rng fuel root st e he htrue)

/-- Witness for C6: the tree built over the chain adjacency contains a
decorative constraint, and the theorem instantiated at it yields a variant
configuration. -/
theorem decor_springs_witness :
    (CFG.leafSpring, true)
      ∈ allEdges (buildRec (-1) adjLine depthLineA rng0 3 "r" st0).1
    ∧ ((CFG.leafSpring, true).1 = CFG.twigSpring
        ∨ (CFG.leafSpring, true).1 = CFG.leafSpring) := by
  have hmem : (CFG.leafSpring, true)
      ∈ allEdges (buildRec (-1) adjLine depthLineA rng0 3 "r" st0).1 := by
    decide
  refine ⟨hmem, ?_⟩
  exact (decor_springs_shorter_and_softer (-1) adjLine depthLineA rng0 3 "r"
    st0).2.2.2.2.2.2.2.2.2.2 (CFG.leafSpring, true) hmem rfl

theorem bodiesL_append (l1 l2 : List TNode) :
    bodiesL (l1 ++ l2) = bodiesL l1 ++ bodiesL l2 := by
  induction l1 with
  | nil => simp [bodiesL]
  | cons t ts ih => simp [bodiesL, ih]

theorem mem_bodiesL_leafNodes {b : RBody} {pid : String} {pg : Int} {n : Nat}
    (h : b ∈ bodiesL (leafNodes pid pg n)) : b.group = pg := by
  induction n with
  | zero => simp [leafNodes, bodiesL] at h
  | succ n ih =>
      rw [leafNodes, List.range_succ, List.map_append, bodiesL_append] at h
      rcases List.mem_append.mp h with h | h
      · exact ih (by rwa [leafNodes])
      · simp [bodiesL, bodiesOf] at h
        rw [h]

theorem mem_bodiesL_termLeafNodes {b : RBody} {pid : String} {pg : Int}
    {n : Nat} (h : b ∈ bodiesL (termLeafNodes pid pg n)) : b.group = pg := by
  induction n with
  | zero => simp [termLeafNodes, bodiesL] at h
  | succ n ih =>
      rw [termLeafNodes, List.range_succ, List.map_append, bodiesL_append] at h
      rcases List.mem_append.mp h with h | h
      · exact ih (by rwa [termLeafNodes])
      · simp [bodiesL, bodiesOf] at h
        rw [h]

/-- Fetching a body preserves the all-groups-are-`g` cache invariant and
returns a body in group `g`. -/
theorem getBody_group (g : Int) (depthM : List (String × Nat)) (id : String)
    (st : BState) (hc : ∀ p ∈ st.cache, (Prod.snd p).group = g) :
    (getBody g depthM id st).1.group = g
    ∧ ∀ p ∈ (getBody g depthM id st).2.cache, (Prod.snd p).group = g := by
  cases hf : assocFind st.cache id with
  | some b =>
      simp only [getBody, hf]
      exact ⟨hc (id, b) (assocFind_mem hf), hc⟩
  | none =>
      constructor
      · simp [getBody, hf, makeBody]
      · intro p hp
        simp only [getBody, hf, makeBody] at hp
        rcases List.mem_append.mp hp with h | h
        · exact hc p h
        · simp at h
          rw [h]

/-- Group uniformity through the children loop: if the builder and the
cache only ever produce bodies in group `g` and the decorative leaves
inherit `pg = g`, every body in the loop's output is in group `g`. -/
theorem buildKids_group (bld : String → BState → TNode × BState)
    (depthM : List (String × Nat)) (rng : Nat → Nat) (pid : String) (g : Int)
    (hb : ∀ id st, (∀ p ∈ st.cache, (Prod.snd p).group = g) →
      (∀ b ∈ bodiesOf (bld id st).1, b.group = g)
      ∧ ∀ p ∈ (bld id st).2.cache, (Prod.snd p).group = g) :
    ∀ (cs : List String) (st : BState),
    (∀ p ∈ st.cache, (Prod.snd p).group = g) →
    (∀ b ∈ bodiesL (buildKids bld depthM rng pid g cs st).1, b.group = g)
    ∧ ∀ p ∈ (buildKids bld depthM rng pid g cs st).2.2.cache,
        (Prod.snd p).group = g := by
  intro cs
  induction cs with
  | nil =>
      intro st hc
      simpa [buildKids, bodiesL] using hc
  | cons cid cs ih =>
      intro st hc
      obtain ⟨hb1, hb2⟩ := hb cid st hc
      by_cases hg : 0 < (assocFind depthM pid).getD 0
      · have hrest := ih (⟨(bld cid st).2.cache, (bld cid st).2.idx,
          (bld cid st).2.ctr + 1⟩ : BState) hb2
        constructor
        · intro b hbmem
          simp only [buildKids, if_pos hg, List.append_eq, bodiesL,
            bodiesL_append, List.mem_append] at hbmem
          rcases hbmem with h | h | h
          · exact hb1 b h
          · exact mem_bodiesL_leafNodes h
          · exact hrest.1 b h
        · intro p hp
          simp only [buildKids, if_pos hg] at hp
          exact hrest.2 p hp
      · have hrest := ih (bld cid st).2 hb2
        constructor
        · intro b hbmem
          simp only [buildKids, if_neg hg, List.append_eq, List.nil_append,
            bodiesL, bodiesL_append, List.mem_append] at hbmem
          rcases hbmem with h | h
          · exact hb1 b h
          · exact hrest.1 b h
        · intro p hp
          simp only [buildKids, if_neg hg] at hp
          exact hrest.2 p hp

/-- Group uniformity for the whole builder. -/
theorem buildRec_group (g : Int) (adj : List (String × List String))
    (depthM : List (String × Nat)) (rng : Nat → Nat) :
    ∀ (fuel : Nat) (id : String) (st : BState),
    (∀ p ∈ st.cache, (Prod.snd p).group = g) →
    (∀ b ∈ bodiesOf (buildRec g adj depthM rng fuel id st).1, b.group = g)
    ∧ ∀ p ∈ (buildRec g adj depthM rng fuel id st).2.cache,
        (Prod.snd p).group = g := by
  intro fuel
  induction fuel with
  | zero =>
      intro id st hc
      obtain ⟨h1, h2⟩ := getBody_group g depthM id st hc
      constructor
      · intro b hb
        simp only [buildRec, bodiesOf, bodiesL, List.mem_singleton,
          List.mem_cons, List.not_mem_nil, or_false] at hb
        rw [hb]
        exact h1
      · simpa [buildRec] using h2
  | succ fuel ih =>
      intro id st hc
      obtain ⟨h1, h2⟩ := getBody_group g depthM id st hc
      have hkids := buildKids_group (buildRec g adj depthM rng fuel) depthM rng
        id g ih (childrenOf adj id) (getBody g depthM id st).2 h2
      by_cases hg : childrenOf adj id = [] ∧ 0 < (assocFind depthM id).getD 0
      · constructor
        · intro b hb
          simp only [buildRec, if_pos hg, bodiesOf, List.append_eq,
            bodiesL_append, List.mem_cons, List.mem_append, h1] at hb
          rcases hb with hb | hb | hb
          · rw [hb]; exact h1
          · exact hkids.1 b hb
          · exact mem_bodiesL_termLeafNodes hb
        · intro p hp
          simp only [buildRec, if_pos hg, h1] at hp
          exact hkids.2 p hp
      · constructor
        · intro b hb
          simp only [buildRec, if_neg hg, bodiesOf, List.mem_cons, h1] at hb
          rcases hb with hb | hb
          · rw [hb]; exact h1
          · exact hkids.1 b hb
        · intro p hp
          simp only [buildRec, if_neg hg, h1] at hp
          exact hkids.2 p hp

/-- **C9**: every body created by `buildTree` — tree-node bodies and both
kinds of decorative leaf bodies — carries the same collision group chosen
once at the start of `buildTree`, and that group is negative whenever the
library's `Body.nextGroup(true)` value is nonzero, so collision detection
is suppressed between every pair of tree bodies. -/
theorem collision_group_uniform (next : Int)
    (adj : List (String × List String)) (depthM : List (String × Nat))
    (rng : Nat → Nat) (fuel : Nat) (root : String) (hnz : next ≠ 0) :
    chooseGroup next < 0
    ∧ ∀ b ∈ bodiesOf (buildRec (chooseGroup next) adj depthM rng fuel root
        st0).1, b.group = chooseGroup next := by
  constructor
  · rw [chooseGroup]
    have h0 : jsOr circleDefaultGroup next = next := by
      simp [jsOr, circleDefaultGroup]
    rw [h0, Int.natCast_natAbs]
    exact neg_lt_zero.mpr (abs_pos.mpr hnz)
  · intro b hb
    exact (buildRec_group (chooseGroup next) adj depthM rng fuel root st0
      (by simp [st0])).1 b hb

/-- Witness for C9: with `next = -1`, the chosen group is negative and the
root body of a concrete build carries it. -/
theorem collision_group_uniform_witness :
    chooseGroup (-1) < 0
    ∧ (RBody.mk "r" (chooseGroup (-1)) 0 0)
        ∈ bodiesOf (buildRec (chooseGroup (-1)) adjLine depthLineA rng0 3 "r"
            st0).1
    ∧ (RBody.mk "r" (chooseGroup (-1)) 0 0).group = chooseGroup (-1) := by
  have h := collision_group_uniform (-1) adjLine depthLineA rng0 3 "r"
    (by decide)
  have hmem : (RBody.mk "r" (chooseGroup (-1)) 0 0)
      ∈ bodiesOf (buildRec (chooseGroup (-1)) adjLine depthLineA rng0 3 "r"
          st0).1 := by decide
  exact ⟨h.1, hmem, h.2 _ hmem⟩

/-- Positivity unfolding for the path count at positive fuel. -/
theorem pathCount_succ_pos (adj : List (String × List String)) (fuel : Nat)
    (id x : String) :
    0 < pathCount adj (fuel + 1) id x
    ↔ id = x ∨ 0 < ((childrenOf adj id).map fun c => pathCount adj fuel c x).sum := by
  rw [pathCount]
  by_cases h : id = x <;> simp [h] <;> omega

theorem pathCount_zero_pos (adj : List (String × List String)) (id x : String) :
    0 < pathCount adj 0 id x ↔ id = x := by
  rw [pathCount]
  by_cases h : id = x <;> simp [h]

/-- Requesting a body adds exactly the requested id to the cache keys. -/
theorem getBody_cache_mem (g : Int) (depthM : List (String × Nat))
    (id : String) (st : BState) (x : String) :
    x ∈ keys (getBody g depthM id st).2.cache
    ↔ x ∈ keys st.cache ∨ x = id := by
  cases hf : assocFind st.cache id with
  | some b =>
      simp only [getBody, hf]
      constructor
      · exact Or.inl
      · rintro (h | rfl)
        · exact h
        · exact mem_keys_of_assocFind hf
  | none =>
      simp only [getBody, hf, makeBody, keys, List.map_append, List.mem_append]
      simp [keys]

theorem getBody_cache_nodup (g : Int) (depthM : List (String × Nat))
    (id : String) (st : BState) (h : (keys st.cache).Nodup) :
    (keys (getBody g depthM id st).2.cache).Nodup := by
  cases hf : assocFind st.cache id with
  | some b => simpa [getBody, hf] using h
  | none =>
      have hid : id ∉ keys st.cache := (assocFind_eq_none_iff _ _).mp hf
      simp only [getBody, hf, makeBody, keys, List.map_append]
      refine List.Nodup.append h (by simp) ?_
      intro x hx hmem
      simp at hmem
      subst hmem
      exact hid hx

theorem getBody_cache_labels (g : Int) (depthM : List (String × Nat))
    (id : String) (st : BState)
    (h : ∀ p ∈ st.cache, (Prod.snd p).label = Prod.fst p) :
    ∀ p ∈ (getBody g depthM id st).2.cache,
      (Prod.snd p).label = Prod.fst p := by
  cases hf : assocFind st.cache id with
  | some b => simpa [getBody, hf] using h
  | none =>
      intro p hp
      simp only [getBody, hf, makeBody] at hp
      rcases List.mem_append.mp hp with hm | hm
      · exact h p hm
      · simp at hm
        rw [hm]

/-- Cache bookkeeping through the children loop: the loop adds exactly the
ids some child can reach, keeps the keys duplicate-free, and labels every
new body with its own id. -/
theorem buildKids_cache (bld : String → BState → TNode × BState)
    (depthM : List (String × Nat)) (rng : Nat → Nat) (pid : String)
    (pg : Int) (pcf : String → String → Nat)
    (hbm : ∀ id st x, x ∈ keys (bld id st).2.cache
      ↔ x ∈ keys st.cache ∨ 0 < pcf id x)
    (hbn : ∀ id st, (keys st.cache).Nodup → (keys (bld id st).2.cache).Nodup)
    (hbl : ∀ id st, (∀ p ∈ st.cache, (Prod.snd p).label = Prod.fst p) →
      ∀ p ∈ (bld id st).2.cache, (Prod.snd p).label = Prod.fst p) :
    ∀ (cs : List String) (st : BState),
    (∀ x, x ∈ keys (buildKids bld depthM rng pid pg cs st).2.2.cache
      ↔ x ∈ keys st.cache ∨ 0 < (cs.map fun c => pcf c x).sum)
    ∧ ((keys st.cache).Nodup
      → (keys (buildKids bld depthM rng pid pg cs st).2.2.cache).Nodup)
    ∧ ((∀ p ∈ st.cache, (Prod.snd p).label = Prod.fst p)
      → ∀ p ∈ (buildKids bld depthM rng pid pg cs st).2.2.cache,
          (Prod.snd p).label = Prod.fst p) := by
  intro cs
  induction cs with
  | nil =>
      intro st
      exact ⟨fun x => by simp [buildKids], fun h => h, fun h => h⟩
  | cons cid cs ih =>
      intro st
      by_cases hg : 0 < (assocFind depthM pid).getD 0
      · have hmid := ih (⟨(bld cid st).2.cache, (bld cid st).2.idx,
          (bld cid st).2.ctr + 1⟩ : BState)
        refine ⟨fun x => ?_, fun h => ?_, fun h => ?_⟩
        · rw [buildKids]
          simp only [if_pos hg]
          rw [hmid.1 x]
          simp only [List.map_cons, List.sum_cons]
          rw [hbm cid st x]
          constructor
          · rintro ((h | h) | h)
            · exact Or.inl h
            · right; omega
            · right; omega
          · rintro (h | h)
            · exact Or.inl (Or.inl h)
            · rcases Nat.lt_or_ge 0 (pcf cid x) with hp | hp
              · exact Or.inl (Or.inr hp)
              · right; omega
        · rw [buildKids]
          simp only [if_pos hg]
          exact hmid.2.1 (hbn cid st h)
        · rw [buildKids]
          simp only [if_pos hg]
          exact hmid.2.2 (hbl cid st h)
      · have hmid := ih (bld cid st).2
        refine ⟨fun x => ?_, fun h => ?_, fun h => ?_⟩
        · rw [buildKids]
          simp only [if_neg hg]
          rw [hmid.1 x]
          simp only [List.map_cons, List.sum_cons]
          rw [hbm cid st x]
          constructor
          · rintro ((h | h) | h)
            · exact Or.inl h
            · right; omega
            · right; omega
          · rintro (h | h)
            · exact Or.inl (Or.inl h)
            · rcases Nat.lt_or_ge 0 (pcf cid x) with hp | hp
              · exact Or.inl (Or.inr hp)
              · right; omega
        · rw [buildKids]
          simp only [if_neg hg]
          exact hmid.2.1 (hbn cid st h)
        · rw [buildKids]
          simp only [if_neg hg]
          exact hmid.2.2 (hbl cid st h)

/-- Cache bookkeeping for the whole builder: after `buildRec`, the cache
keys are the initial keys plus exactly the ids the builder reached, without
duplicates, and every body is labelled by its own id. -/
theorem buildRec_cache (g : Int) (adj : List (String × List String))
    (depthM : List (String × Nat)) (rng : Nat → Nat) :
    ∀ (fuel : Nat) (id : String) (st : BState),
    (∀ x, x ∈ keys (buildRec g adj depthM rng fuel id st).2.cache
      ↔ x ∈ keys st.cache ∨ 0 < pathCount adj fuel id x)
    ∧ ((keys st.cache).Nodup
      → (keys (buildRec g adj depthM rng fuel id st).2.cache).Nodup)
    ∧ ((∀ p ∈ st.cache, (Prod.snd p).label = Prod.fst p)
      → ∀ p ∈ (buildRec g adj depthM rng fuel id st).2.cache,
          (Prod.snd p).label = Prod.fst p) := by
  intro fuel
  induction fuel with
  | zero =>
      intro id st
      refine ⟨fun x => ?_, fun h => ?_, fun h => ?_⟩
      · rw [buildRec]
        rw [getBody_cache_mem, pathCount_zero_pos]
        constructor
        · rintro (h | h)
          · exact Or.inl h
          · exact Or.inr h.symm
        · rintro (h | h)
          · exact Or.inl h
          · exact Or.inr h.symm
      · rw [buildRec]
        exact getBody_cache_nodup g depthM id st h
      · rw [buildRec]
        exact getBody_cache_labels g depthM id st h
  | succ fuel ih =>
      intro id st
      have hkids := buildKids_cache (buildRec g adj depthM rng fuel) depthM rng
        id (getBody g depthM id st).1.group (pathCount adj fuel)
        (fun id st x => (ih id st).1 x) (fun id st => (ih id st).2.1)
        (fun id st => (ih id st).2.2) (childrenOf adj id)
        (getBody g depthM id st).2
      by_cases hg : childrenOf adj id = [] ∧ 0 < (assocFind depthM id).getD 0
      · refine ⟨fun x => ?_, fun h => ?_, fun h => ?_⟩
        · simp only [buildRec, if_pos hg]
          rw [hkids.1 x, getBody_cache_mem, pathCount_succ_pos]
          constructor
          · rintro ((h | h) | h)
            · exact Or.inl h
            · exact Or.inr (Or.inl h.symm)
            · exact Or.inr (Or.inr h)
          · rintro (h | h | h)
            · exact Or.inl (Or.inl h)
            · exact Or.inl (Or.inr h.symm)
            · exact Or.inr h
        · simp only [buildRec, if_pos hg]
          exact hkids.2.1 (getBody_cache_nodup g depthM id st h)
        · simp only [buildRec, if_pos hg]
          exact hkids.2.2 (getBody_cache_labels g depthM id st h)
      · refine ⟨fun x => ?_, fun h => ?_, fun h => ?_⟩
        · simp only [buildRec, if_neg hg]
          rw [hkids.1 x, getBody_cache_mem, pathCount_succ_pos]
          constructor
          · rintro ((h | h) | h)
            · exact Or.inl h
            · exact Or.inr (Or.inl h.symm)
            · exact Or.inr (Or.inr h)
          · rintro (h | h | h)
            · exact Or.inl (Or.inl h)
            · exact Or.inl (Or.inr h.symm)
            · exact Or.inr h
        · simp only [buildRec, if_neg hg]
          exact hkids.2.1 (getBody_cache_nodup g depthM id st h)
        · simp only [buildRec, if_neg hg]
          exact hkids.2.2 (getBody_cache_labels g depthM id st h)

/-- **C5**: `buildTree` instantiates exactly one rigid body per tree-node
id: a repeated request for a cached id returns the cached body and leaves
the state untouched, and after the build the cache holds one body per id,
keyed without duplicates by exactly the ids the builder reached, each body
labelled by its id — a one-to-one correspondence between the non-decorative
bodies added to the world (`[...bodyCache.values()]`) and the reached node
ids. -/
theorem one_body_per_node_id (g : Int) (adj : List (String × List String))
    (depthM : List (String × Nat)) (rng : Nat → Nat) (fuel : Nat)
    (root : String) :
    (∀ st id b, assocFind st.cache id = some b
      → getBody g depthM id st = (b, st))
    ∧ (keys (buildRec g adj depthM rng fuel root st0).2.cache).Nodup
    ∧ (∀ x, x ∈ keys (buildRec g adj depthM rng fuel root st0).2.cache
        ↔ 0 < pathCount adj fuel root x)
    ∧ (∀ p ∈ (buildRec g adj depthM rng fuel root st0).2.cache,
        (Prod.snd p).label = Prod.fst p) := by
  obtain ⟨hm, hn, hl⟩ := buildRec_cache g adj depthM rng fuel root st0
  refine ⟨?_, hn (by simp [st0, keys]), fun x => ?_, hl (by simp [st0])⟩
  · intro st id b h
    simp [getBody, h]
  · rw [hm x]
    simp [st0, keys]

/-- Witness for C5: concrete cache hit and concrete cache contents after a
build over the chain adjacency. -/
theorem one_body_per_node_id_witness :
    assocFind (buildRec (-1) adjLine depthLineA rng0 3 "r" st0).2.cache "r"
      = some (RBody.mk "r" (-1) 0 0)
    ∧ getBody (-1) depthLineA "r"
        (buildRec (-1) adjLine depthLineA rng0 3 "r" st0).2
      = (RBody.mk "r" (-1) 0 0, (buildRec (-1) adjLine depthLineA rng0 3 "r" st0).2)
    ∧ (keys (buildRec (-1) adjLine depthLineA rng0 3 "r" st0).2.cache).Nodup
    ∧ ("b" ∈ keys (buildRec (-1) adjLine depthLineA rng0 3 "r" st0).2.cache
        ↔ 0 < pathCount adjLine 3 "r" "b") := by
  have h := one_body_per_node_id (-1) adjLine depthLineA rng0 3 "r"
  have hf : assocFind (buildRec (-1) adjLine depthLineA rng0 3 "r" st0).2.cache
      "r" = some (RBody.mk "r" (-1) 0 0) := by decide
  exact ⟨hf, h.1 _ "r" _ hf, h.2.1, h.2.2.1 "b"⟩

theorem stripL_append (l1 l2 : List TNode) :
    stripL (l1 ++ l2) = stripL l1 ++ stripL l2 := by
  induction l1 with
  | nil => simp [stripL]
  | cons t ts ih => simp [stripL, ih]

/-- Two caches with the same keys, labels and groups yield lookups with the
same success and the same label/group. -/
theorem assocFind_proj_congr :
    ∀ (l1 l2 : List (String × RBody)),
    l1.map (fun p => (Prod.fst p, (Prod.snd p).label, (Prod.snd p).group))
      = l2.map (fun p => (Prod.fst p, (Prod.snd p).label, (Prod.snd p).group)) →
    ∀ x, (assocFind l1 x).map (fun b => (b.label, b.group))
      = (assocFind l2 x).map (fun b => (b.label, b.group)) := by
  intro l1
  induction l1 with
  | nil =>
      intro l2 h x
      cases l2 with
      | nil => rfl
      | cons q l2 => simp at h
  | cons p l1 ih =>
      intro l2 h x
      cases l2 with
      | nil => simp at h
      | cons q l2 =>
          obtain ⟨k1, v1⟩ := p
          obtain ⟨k2, v2⟩ := q
          simp only [List.map_cons, List.cons.injEq, Prod.mk.injEq] at h
          obtain ⟨⟨hk, hl, hg⟩, htail⟩ := h
          by_cases hx : x = k1
          · subst hx
            rw [assocFind_cons_self, hk, assocFind_cons_self]
            simp [hl, hg]
          · rw [assocFind_cons_ne _ _ hx, assocFind_cons_ne _ _ (hk ▸ hx)]
            exact ih l2 htail x

/-- Fetching a body in two runs whose caches agree on keys, labels and
groups (and whose oracles are aligned) yields bodies with the same label
and group and keeps the caches in agreement; the depth maps may differ
arbitrarily (they only feed the erased layout seeds). -/
theorem getBody_congr (g : Int) (d1 d2 : List (String × Nat)) (id : String)
    (st1 st2 : BState) (hctr : st1.ctr = st2.ctr)
    (hcache : st1.cache.map
        (fun p => (Prod.fst p, (Prod.snd p).label, (Prod.snd p).group))
      = st2.cache.map
        (fun p => (Prod.fst p, (Prod.snd p).label, (Prod.snd p).group))) :
    (getBody g d1 id st1).1.label = (getBody g d2 id st2).1.label
    ∧ (getBody g d1 id st1).1.group = (getBody g d2 id st2).1.group
    ∧ (getBody g d1 id st1).2.ctr = (getBody g d2 id st2).2.ctr
    ∧ (getBody g d1 id st1).2.cache.map
        (fun p => (Prod.fst p, (Prod.snd p).label, (Prod.snd p).group))
      = (getBody g d2 id st2).2.cache.map
        (fun p => (Prod.fst p, (Prod.snd p).label, (Prod.snd p).group)) := by
  have hfind := assocFind_proj_congr st1.cache st2.cache hcache id
  cases hf1 : assocFind st1.cache id with
  | some b1 =>
      rw [hf1] at hfind
      cases hf2 : assocFind st2.cache id with
      | none =>
          rw [hf2] at hfind
          simp at hfind
      | some b2 =>
          rw [hf2] at hfind
          simp only [Option.map_some', Option.some.injEq, Prod.mk.injEq]
            at hfind
          simp only [getBody, hf1, hf2]
          exact ⟨hfind.1, hfind.2, hctr, hcache⟩
  | none =>
      rw [hf1] at hfind
      cases hf2 : assocFind st2.cache id with
      | some b2 =>
          rw [hf2] at hfind
          simp at hfind
      | none =>
          refine ⟨?_, ?_, ?_, ?_⟩
          · simp [getBody, hf1, hf2, makeBody]
          · simp [getBody, hf1, hf2, makeBody]
          · simpa [getBody, hf1, hf2, makeBody] using hctr
          · simp [getBody, hf1, hf2, makeBody, hcache]

/-- Strip-level congruence for the children loop: two runs over depth maps
that agree on the positivity of the parent's depth, starting from states
with aligned oracles and caches, produce the same stripped children, the
same edge lists, and stay aligned. -/
theorem buildKids_strip_congr (bld1 bld2 : String → BState → TNode × BState)
    (d1 d2 : List (String × Nat)) (rng : Nat → Nat) (pid : String) (pg : Int)
    (hguard : 0 < (assocFind d1 pid).getD 0 ↔ 0 < (assocFind d2 pid).getD 0)
    (hb : ∀ id st1 st2, st1.ctr = st2.ctr →
      st1.cache.map
          (fun p => (Prod.fst p, (Prod.snd p).label, (Prod.snd p).group))
        = st2.cache.map
          (fun p => (Prod.fst p, (Prod.snd p).label, (Prod.snd p).group)) →
      strip (bld1 id st1).1 = strip (bld2 id st2).1
      ∧ (bld1 id st1).2.ctr = (bld2 id st2).2.ctr
      ∧ (bld1 id st1).2.cache.map
          (fun p => (Prod.fst p, (Prod.snd p).label, (Prod.snd p).group))
        = (bld2 id st2).2.cache.map
          (fun p => (Prod.fst p, (Prod.snd p).label, (Prod.snd p).group))) :
    ∀ (cs : List String) (st1 st2 : BState), st1.ctr = st2.ctr →
    st1.cache.map (fun p => (Prod.fst p, (Prod.snd p).label, (Prod.snd p).group))
      = st2.cache.map (fun p => (Prod.fst p, (Prod.snd p).label, (Prod.snd p).group)) →
    stripL (buildKids bld1 d1 rng pid pg cs st1).1
      = stripL (buildKids bld2 d2 rng pid pg cs st2).1
    ∧ (buildKids bld1 d1 rng pid pg cs st1).2.1
      = (buildKids bld2 d2 rng pid pg cs st2).2.1
    ∧ (buildKids bld1 d1 rng pid pg cs st1).2.2.ctr
      = (buildKids bld2 d2 rng pid pg cs st2).2.2.ctr
    ∧ (buildKids bld1 d1 rng pid pg cs st1).2.2.cache.map
        (fun p => (Prod.fst p, (Prod.snd p).label, (Prod.snd p).group))
      = (buildKids bld2 d2 rng pid pg cs st2).2.2.cache.map
        (fun p => (Prod.fst p, (Prod.snd p).label, (Prod.snd p).group)) := by
  intro cs
  induction cs with
  | nil =>
      intro st1 st2 hctr hcache
      exact ⟨rfl, rfl, hctr, hcache⟩
  | cons cid cs ih =>
      intro st1 st2 hctr hcache
      obtain ⟨hstrip, hctr1, hcache1⟩ := hb cid st1 st2 hctr hcache
      by_cases hg1 : 0 < (assocFind d1 pid).getD 0
      · have hg2 : 0 < (assocFind d2 pid).getD 0 := hguard.mp hg1
        obtain ⟨ih1, ih2, ih3, ih4⟩ := ih
          (⟨(bld1 cid st1).2.cache, (bld1 cid st1).2.idx,
            (bld1 cid st1).2.ctr + 1⟩ : BState)
          (⟨(bld2 cid st2).2.cache, (bld2 cid st2).2.idx,
            (bld2 cid st2).2.ctr + 1⟩ : BState)
          (by simp [hctr1]) (by simpa using hcache1)
        refine ⟨?_, ?_, ?_, ?_⟩
        · simp only [buildKids, if_pos hg1, if_pos hg2, List.append_eq,
            stripL, stripL_append]
          rw [hstrip, ih1, hctr1]
        · simp only [buildKids, if_pos hg1, if_pos hg2, List.append_eq]
          rw [ih2, hctr1]
        · simp only [buildKids, if_pos hg1, if_pos hg2]
          exact ih3
        · simp only [buildKids, if_pos hg1, if_pos hg2]
          exact ih4
      · have hg2 : ¬ 0 < (assocFind d2 pid).getD 0 := fun h => hg1 (hguard.mpr h)
        obtain ⟨ih1, ih2, ih3, ih4⟩ := ih (bld1 cid st1).2 (bld2 cid st2).2
          hctr1 hcache1
        refine ⟨?_, ?_, ?_, ?_⟩
        · simp only [buildKids, if_neg hg1, if_neg hg2, List.append_eq,
            List.nil_append, stripL, stripL_append]
          rw [hstrip, ih1]
        · simp only [buildKids, if_neg hg1, if_neg hg2, List.append_eq,
            List.nil_append]
          rw [ih2]
        · simp only [buildKids, if_neg hg1, if_neg hg2]
          exact ih3
        · simp only [buildKids, if_neg hg1, if_neg hg2]
          exact ih4

/-- Strip-level congruence for the whole builder: changing the depth map in
any way that preserves which depths are positive leaves the stripped tree
(ids, labels, groups, structure, edge configurations) unchanged, together
with the oracle position and the cache projection. -/
theorem buildRec_strip_congr (g : Int) (adj : List (String × List String))
    (d1 d2 : List (String × Nat)) (rng : Nat → Nat)
    (hpos : ∀ x, 0 < (assocFind d1 x).getD 0 ↔ 0 < (assocFind d2 x).getD 0) :
    ∀ (fuel : Nat) (id : String) (st1 st2 : BState), st1.ctr = st2.ctr →
    st1.cache.map (fun p => (Prod.fst p, (Prod.snd p).label, (Prod.snd p).group))
      = st2.cache.map (fun p => (Prod.fst p, (Prod.snd p).label, (Prod.snd p).group)) →
    strip (buildRec g adj d1 rng fuel id st1).1
      = strip (buildRec g adj d2 rng fuel id st2).1
    ∧ (buildRec g adj d1 rng fuel id st1).2.ctr
      = (buildRec g adj d2 rng fuel id st2).2.ctr
    ∧ (buildRec g adj d1 rng fuel id st1).2.cache.map
        (fun p => (Prod.fst p, (Prod.snd p).label, (Prod.snd p).group))
      = (buildRec g adj d2 rng fuel id st2).2.cache.map
        (fun p => (Prod.fst p, (Prod.snd p).label, (Prod.snd p).group)) := by
  intro fuel
  induction fuel with
  | zero =>
      intro id st1 st2 hctr hcache
      obtain ⟨hl, hg, hc, hm⟩ := getBody_congr g d1 d2 id st1 st2 hctr hcache
      refine ⟨?_, ?_, ?_⟩
      · simp only [buildRec, strip, stripL]
        rw [hl, hg]
      · simpa [buildRec] using hc
      · simpa [buildRec] using hm
  | succ fuel ih =>
      intro id st1 st2 hctr hcache
      obtain ⟨hl, hg, hc, hm⟩ := getBody_congr g d1 d2 id st1 st2 hctr hcache
      obtain ⟨hk1, hk2, hk3, hk4⟩ := buildKids_strip_congr
        (buildRec g adj d1 rng fuel) (buildRec g adj d2 rng fuel) d1 d2 rng id
        (getBody g d2 id st2).1.group (hpos id)
        (fun id' s1 s2 h1 h2 => ih id' s1 s2 h1 h2)
        (childrenOf adj id) (getBody g d1 id st1).2 (getBody g d2 id st2).2
        hc hm
      by_cases hgd : childrenOf adj id = [] ∧ 0 < (assocFind d1 id).getD 0
      · have hgd2 : childrenOf adj id = [] ∧ 0 < (assocFind d2 id).getD 0 :=
          ⟨hgd.1, (hpos id).mp hgd.2⟩
        refine ⟨?_, ?_, ?_⟩
        · simp only [buildRec, if_pos hgd, if_pos hgd2, strip, stripL_append,
            List.append_eq]
          rw [hl, hg, hk1, hk2, hk3]
        · simp only [buildRec, if_pos hgd, if_pos hgd2]
          rw [hg, hk3]
        · simp only [buildRec, if_pos hgd, if_pos hgd2]
          rw [hg, hk4]
      · have hgd2 : ¬ (childrenOf adj id = [] ∧ 0 < (assocFind d2 id).getD 0) := by
          intro h
          exact hgd ⟨h.1, (hpos id).mpr h.2⟩
        refine ⟨?_, ?_, ?_⟩
        · simp only [buildRec, if_neg hgd, if_neg hgd2, strip]
          rw [hl, hg, hk1, hk2]
        · simp only [buildRec, if_neg hgd, if_neg hgd2]
          rw [hg, hk3]
        · simp only [buildRec, if_neg hgd, if_neg hgd2]
          rw [hg, hk4]

/-- **C3** (amended): the depth map feeds the initial layout seeds and,
through the `depth.get(id) > 0` guards, the decorative leaf attachment.
For any two depth maps that agree on which ids have positive depth, the
construction differs only in the bodies' layout seeds (initial positions):
the trees are equal after erasing the seeds — same ids, labels, collision
groups, child structure, and spring configurations. -/
theorem build_shape_depends_only_on_depth_positivity (g : Int)
    (adj : List (String × List String)) (d1 d2 : List (String × Nat))
    (rng : Nat → Nat) (fuel : Nat) (root : String)
    (hpos : ∀ x, 0 < (assocFind d1 x).getD 0 ↔ 0 < (assocFind d2 x).getD 0) :
    strip (buildRec g adj d1 rng fuel root st0).1
      = strip (buildRec g adj d2 rng fuel root st0).1 :=
  (buildRec_strip_congr g adj d1 d2 rng hpos fuel root st0 st0 rfl rfl).1

/-- Counterexample to **C3** as stated: two depth maps defined on the same
ids but with different values (the true BFS depths versus all zeroes) give
trees with different node sets — the all-zero map suppresses every
decorative leaf — so the output differs beyond initial positions. -/
theorem build_output_depends_on_depth_values :
    keys depthLineA = keys depthLineB
    ∧ (traverseIds (buildRec (-1) adjLine depthLineA rng0 3 "r" st0).1).length
        ≠ (traverseIds (buildRec (-1) adjLine depthLineB rng0 3 "r" st0).1).length := by
  exact ⟨by decide, by decide⟩

/-- Witness for the amended C3: the BFS depth map of the chain and a map
with doubled values agree on positivity, and the theorem yields equal
stripped trees. -/
theorem build_shape_witness :
    strip (buildRec (-1) adjLine depthLineA rng0 3 "r" st0).1
      = strip (buildRec (-1) adjLine depthLineC rng0 3 "r" st0).1 := by
  refine build_shape_depends_only_on_depth_positivity (-1) adjLine depthLineA
    depthLineC rng0 3 "r" ?_
  intro x
  by_cases h1 : x = "r"
  · subst h1
    simp [depthLineA, depthLineC, assocFind]
  by_cases h2 : x = "a"
  · subst h2
    simp [depthLineA, depthLineC, assocFind]
  by_cases h3 : x = "b"
  · subst h3
    simp [depthLineA, depthLineC, assocFind]
  · simp [depthLineA, depthLineC, assocFind, h1, h2, h3]

/-- **C10**: for a pair of bodies at exactly the same position the squared
distance is zero, the `r2 === 0` guard fires before any square root or
division is taken, and the repulsion step leaves both bodies untouched. -/
theorem repulsion_same_position_no_force (A B : PBody) (h : A.pos = B.pos) :
    repApply A B = (A, B) := by
  have hdx : B.pos.1 - A.pos.1 = 0 := by rw [h]; ring
  have hdy : B.pos.2 - A.pos.2 = 0 := by rw [h]; ring
  simp only [repApply, hdx, hdy]
  norm_num

/-- Witness for C10 at a concrete coincident pair. -/
theorem repulsion_same_position_witness :
    pbA.pos = pbA.pos ∧ repApply pbA pbA = (pbA, pbA) :=
  ⟨rfl, repulsion_same_position_no_force pbA pbA rfl⟩

/-- **C4**: in the per-tick repulsion pass, for a pair of distinct bodies at
distance `0 < r ≤ repulsion.max` the step leaves positions unchanged and
applies a force of magnitude `k / max(r, repulsion.min)²` (stated via the
squared Euclidean norm of the force increment) along the line from `A`
to `B`, positively to `B` and with the exact opposite vector to `A`; for a
pair at distance `r > repulsion.max` no force is applied. -/
theorem repulsion_pair_force_spec (A B : PBody) :
    (∀ r, r = Real.sqrt ((B.pos.1 - A.pos.1) * (B.pos.1 - A.pos.1)
        + (B.pos.2 - A.pos.2) * (B.pos.2 - A.pos.2)) →
      0 < r → ¬ r > (CFG.repulsionMax : ℝ) →
      ((repApply A B).1.pos = A.pos ∧ (repApply A B).2.pos = B.pos)
      ∧ ((repApply A B).1.force.1 - A.force.1
          = -((repApply A B).2.force.1 - B.force.1)
        ∧ (repApply A B).1.force.2 - A.force.2
          = -((repApply A B).2.force.2 - B.force.2))
      ∧ ((repApply A B).2.force.1 - B.force.1) ^ 2
          + ((repApply A B).2.force.2 - B.force.2) ^ 2
          = ((CFG.repulsionK : ℝ) / max r (CFG.repulsionMin : ℝ) ^ 2) ^ 2
      ∧ ∃ c : ℝ, 0 < c
          ∧ (repApply A B).2.force.1 - B.force.1 = c * (B.pos.1 - A.pos.1)
          ∧ (repApply A B).2.force.2 - B.force.2 = c * (B.pos.2 - A.pos.2))
    ∧ (∀ r, r = Real.sqrt ((B.pos.1 - A.pos.1) * (B.pos.1 - A.pos.1)
        + (B.pos.2 - A.pos.2) * (B.pos.2 - A.pos.2)) →
      r > (CFG.repulsionMax : ℝ) → repApply A B = (A, B)) := by
  constructor
  · intro r hr hpos hle
    have hnn : 0 ≤ (B.pos.1 - A.pos.1) * (B.pos.1 - A.pos.1)
        + (B.pos.2 - A.pos.2) * (B.pos.2 - A.pos.2) :=
      add_nonneg (mul_self_nonneg _) (mul_self_nonneg _)
    have hrr : r * r = (B.pos.1 - A.pos.1) * (B.pos.1 - A.pos.1)
        + (B.pos.2 - A.pos.2) * (B.pos.2 - A.pos.2) := by
      rw [hr]
      exact Real.mul_self_sqrt hnn
    have hr2ne : (B.pos.1 - A.pos.1) * (B.pos.1 - A.pos.1)
        + (B.pos.2 - A.pos.2) * (B.pos.2 - A.pos.2) ≠ 0 := by
      intro h0
      rw [hr, h0, Real.sqrt_zero] at hpos
      exact lt_irrefl 0 hpos
    have hrne : r ≠ 0 := ne_of_gt hpos
    have hcpos : 0 < max r ((CFG.repulsionMin : ℚ) : ℝ) :=
      lt_of_lt_of_le hpos (le_max_left _ _)
    have hcne : max r ((CFG.repulsionMin : ℚ) : ℝ) ≠ 0 := ne_of_gt hcpos
    simp only [repApply, if_neg hr2ne, ← hr, if_neg hle]
    refine ⟨⟨by trivial, by trivial⟩, ⟨by ring, by ring⟩, ?_, ?_⟩
    · have key : ∀ dx dy m : ℝ,
          (B.force.1 + dx / r * m - B.force.1) ^ 2
            + (B.force.2 + dy / r * m - B.force.2) ^ 2
          = (dx * dx + dy * dy) * (m ^ 2 / (r * r)) := by
        intro dx dy m
        field_simp
        ring
      rw [key, ← hrr]
      field_simp
      ring
    · refine ⟨(CFG.repulsionK : ℝ)
        / (max r ((CFG.repulsionMin : ℚ) : ℝ)
          * max r ((CFG.repulsionMin : ℚ) : ℝ)) / r, ?_, by ring, by ring⟩
      have hk : (0 : ℝ) < (CFG.repulsionK : ℚ) := by
        norm_num [CFG.repulsionK]
      positivity
  · intro r hr hgt
    have hr2 : (B.pos.1 - A.pos.1) * (B.pos.1 - A.pos.1)
        + (B.pos.2 - A.pos.2) * (B.pos.2 - A.pos.2) = 0 ∨
        (B.pos.1 - A.pos.1) * (B.pos.1 - A.pos.1)
        + (B.pos.2 - A.pos.2) * (B.pos.2 - A.pos.2) ≠ 0 := em _
    rcases hr2 with h0 | hne
    · simp only [repApply, h0]
      norm_num
    · simp only [repApply, if_neg hne, ← hr, if_pos hgt]

/-- Witness for C4: bodies at distance 5 (within range), where the force
increment on `B` has squared magnitude `(1 / max(5, 26)²)² = 1 / 456976`. -/
theorem repulsion_pair_force_spec_witness :
    (5 : ℝ) = Real.sqrt ((pbB.pos.1 - pbA.pos.1) * (pbB.pos.1 - pbA.pos.1)
      + (pbB.pos.2 - pbA.pos.2) * (pbB.pos.2 - pbA.pos.2))
    ∧ (0 : ℝ) < 5 ∧ ¬ (5 : ℝ) > (CFG.repulsionMax : ℝ)
    ∧ ((repApply pbA pbB).2.force.1 - pbB.force.1) ^ 2
        + ((repApply pbA pbB).2.force.2 - pbB.force.2) ^ 2
      = ((CFG.repulsionK : ℝ) / max (5 : ℝ) (CFG.repulsionMin : ℝ) ^ 2) ^ 2 := by
  have harg : (pbB.pos.1 - pbA.pos.1) * (pbB.pos.1 - pbA.pos.1)
      + (pbB.pos.2 - pbA.pos.2) * (pbB.pos.2 - pbA.pos.2) = (25 : ℝ) := by
    norm_num [pbA, pbB]
  have hsq : (5 : ℝ) = Real.sqrt ((pbB.pos.1 - pbA.pos.1) * (pbB.pos.1 - pbA.pos.1)
      + (pbB.pos.2 - pbA.pos.2) * (pbB.pos.2 - pbA.pos.2)) := by
    rw [harg, show (25 : ℝ) = 5 ^ 2 by norm_num,
      Real.sqrt_sq (by norm_num : (0 : ℝ) ≤ 5)]
  have hmax : ¬ (5 : ℝ) > (CFG.repulsionMax : ℝ) := by
    norm_num [CFG.repulsionMax]
  refine ⟨hsq, by norm_num, hmax, ?_⟩
  exact ((repulsion_pair_force_spec pbA pbB).1 5 hsq (by norm_num) hmax).2.2.1
